import Mathlib

/-!
# Verification of the mention reference engine

A shallow embedding of the mention engine of the `active-user-and-participants`
plugin (`src/main.ts`): the mention decoder used by
`generateParticipantsFromVault`, the corpus rewrite `updateMentionsForParticipant`,
the mention search `performMentionSearch`, and the mention encoder of
`selectSuggestion`.  Documents are lists of characters; the JavaScript
regular expressions are embedded as deterministic matchers (each regex in the
source is of the form "literal pieces separated by maximal runs of
characters excluding a delimiter", so greedy matching is equivalent to
takeWhile-style scanning, and `exec`/`replace` with the `g` flag is a
left-to-right scan that resumes after each match and otherwise advances one
character).
-/

namespace Mention

abbrev Str := List Char

/-- Strip a literal piece from the front of a text: `some r` when `t = p ++ r`. -/
def stripPfx : Str → Str → Option Str
  | [], t => some t
  | _ :: _, [] => none
  | c :: p, d :: t => if c = d then stripPfx p t else none

/-- Split a text at the first character from `bad` (the embedding of a maximal
run `[^bad]*` in a regex): returns the run and the remainder. -/
def grab (bad : List Char) : Str → Str × Str
  | [] => ([], [])
  | c :: t =>
    if c ∈ bad then ([], c :: t)
    else
      let p := grab bad t
      (c :: p.1, p.2)

/-- The characters of the `mention://` scheme. -/
def mentionScheme : Str := "mention://".data

/-- The two surface encodings of a mention. -/
inductive MForm
  | wiki
  | expl
deriving DecidableEq, Repr

/-- One decoded mention occurrence: start offset, form, participant id,
cached display name. -/
structure Occ where
  start : Nat
  form : MForm
  pid : Str
  pname : Str
deriving DecidableEq, Repr

/-- Decoder matcher for `@\[\[([^\]|]+)\|([^\]]+)\]\]` (the wikilink regex of
`generateParticipantsFromVault`), anchored at the head of the text:
on success returns the id, the name and the rest of the text. -/
def matchWiki (t : Str) : Option (Str × Str × Str) :=
  match stripPfx ['@', '[', '['] t with
  | none => none
  | some r =>
    let p1 := grab [']', '|'] r
    if p1.1 = [] then none
    else
      match stripPfx ['|'] p1.2 with
      | none => none
      | some r2 =>
        let p2 := grab [']'] r2
        if p2.1 = [] then none
        else
          match stripPfx [']', ']'] p2.2 with
          | none => none
          | some rest => some (p1.1, p2.1, rest)

/-- Decoder matcher for `@\[([^\]]+)\]\(mention:\/\/([^\)]+)\)` (the explicit
mention regex of `generateParticipantsFromVault`), anchored at the head. -/
def matchExpl (t : Str) : Option (Str × Str × Str) :=
  match stripPfx ['@', '['] t with
  | none => none
  | some r =>
    let p1 := grab [']'] r
    if p1.1 = [] then none
    else
      match stripPfx (']' :: '(' :: mentionScheme) p1.2 with
      | none => none
      | some r2 =>
        let p2 := grab [')'] r2
        if p2.1 = [] then none
        else
          match stripPfx [')'] p2.2 with
          | none => none
          | some rest => some (p2.1, p1.1, rest)

/-- Rewrite/search matcher for ``@\[\[${id}\|[^\]]*\]\]`` (the wikilink pattern
built from a participant id in `updateMentionsForParticipant` and
`performMentionSearch`): the id is a literal, the cached name may be empty. -/
def matchWikiP (pid : Str) (t : Str) : Option Str :=
  match stripPfx ('@' :: '[' :: '[' :: (pid ++ ['|'])) t with
  | none => none
  | some r =>
    let p := grab [']'] r
    match stripPfx [']', ']'] p.2 with
    | none => none
    | some rest => some rest

/-- Rewrite/search matcher for ``@\[[^\]]*\]\(mention://${id}\)``. -/
def matchExplP (pid : Str) (t : Str) : Option Str :=
  match stripPfx ['@', '['] t with
  | none => none
  | some r =>
    let p := grab [']'] r
    match stripPfx ((']' :: '(' :: mentionScheme) ++ pid ++ [')']) p.2 with
    | none => none
    | some rest => some rest

/-! ## A generic fueled scanner

`mscanF` embeds the common shape of a JavaScript global-regex traversal:
try the matcher at the current position; on a match, consume it and
continue after it, otherwise move one character forward.  The fuel is the
length of the text, which always suffices because matches are nonempty. -/

def mscanF {α β : Type} (m : Str → Option (α × Str)) (fM : α → β → β)
    (fC : Char → β → β) (z : β) : Nat → Str → β
  | 0, _ => z
  | _ + 1, [] => z
  | f + 1, c :: t =>
    match m (c :: t) with
    | some (a, rest) => fM a (mscanF m fM fC z f rest)
    | none => fC c (mscanF m fM fC z f t)

/-- A matcher shrinks: whatever it consumes is nonempty. -/
def Shrinks {α : Type} (m : Str → Option (α × Str)) : Prop :=
  ∀ t a rest, m t = some (a, rest) → rest.length < t.length

def runScan {α β : Type} (m : Str → Option (α × Str)) (fM : α → β → β)
    (fC : Char → β → β) (z : β) (t : Str) : β :=
  mscanF m fM fC z t.length t

/-! ## The concrete scans of `main.ts` -/

/-- Adapter: the rewrite wikilink matcher as a unit-payload matcher. -/
def matchWikiPU (pid : Str) (t : Str) : Option (Unit × Str) :=
  (matchWikiP pid t).map (fun r => ((), r))

/-- Adapter: the rewrite explicit matcher as a unit-payload matcher. -/
def matchExplPU (pid : Str) (t : Str) : Option (Unit × Str) :=
  (matchExplP pid t).map (fun r => ((), r))

/-- `content.replace(new RegExp("@\\[\\[" + oldId + "\\|[^\\]]*\\]\\]", "g"), rep)`
(line 346 of `main.ts`): replace every wikilink mention of `pid` by `rep`. -/
def replWiki (pid rep : Str) : Str → Str :=
  runScan (matchWikiPU pid) (fun _ acc => rep ++ acc) (fun c acc => c :: acc) []

/-- `content.replace(new RegExp("@\\[[^\\]]*\\]\\(mention://" + oldId + "\\)", "g"), rep)`
(line 350 of `main.ts`). -/
def replExpl (pid rep : Str) : Str → Str :=
  runScan (matchExplPU pid) (fun _ acc => rep ++ acc) (fun c acc => c :: acc) []

/-- `(content.match(wikilinkRegex) || []).length` (line 339 of `main.ts`). -/
def cntWiki (pid : Str) : Str → Nat :=
  runScan (matchWikiPU pid) (fun _ n => n + 1) (fun _ n => n) 0

/-- `(content.match(mentionLinkRegex) || []).length` (line 341 of `main.ts`). -/
def cntExpl (pid : Str) : Str → Nat :=
  runScan (matchExplPU pid) (fun _ n => n + 1) (fun _ n => n) 0

/-- The wikilink `exec` loop of `generateParticipantsFromVault` (lines 377-385),
tracking the offset of each match. -/
def scanWikiF : Nat → Nat → Str → List Occ
  | 0, _, _ => []
  | _ + 1, _, [] => []
  | f + 1, pos, c :: t =>
    match matchWiki (c :: t) with
    | some (id, nm, rest) =>
      ⟨pos, MForm.wiki, id, nm⟩ :: scanWikiF f (pos + ((c :: t).length - rest.length)) rest
    | none => scanWikiF f (pos + 1) t

def scanWiki (pos : Nat) (t : Str) : List Occ := scanWikiF t.length pos t

/-- The explicit-mention `exec` loop of `generateParticipantsFromVault`
(lines 388-395). -/
def scanExplF : Nat → Nat → Str → List Occ
  | 0, _, _ => []
  | _ + 1, _, [] => []
  | f + 1, pos, c :: t =>
    match matchExpl (c :: t) with
    | some (id, nm, rest) =>
      ⟨pos, MForm.expl, id, nm⟩ :: scanExplF f (pos + ((c :: t).length - rest.length)) rest
    | none => scanExplF f (pos + 1) t

def scanExpl (pos : Nat) (t : Str) : List Occ := scanExplF t.length pos t

/-- All mention occurrences of a document, in the order the code visits them:
the wikilink pass first, then the explicit pass (lines 373-396 of `main.ts`). -/
def decodeMentions (t : Str) : List Occ := scanWiki 0 t ++ scanExpl 0 t

/-! ## The rewrite engine (`updateMentionsForParticipant`, lines 329-360) -/

/-- The wikilink replacement text `@[[${newId}|${newName}]]`. -/
def wikiRep (newId newName : Str) : Str :=
  ['@', '[', '['] ++ newId ++ ['|'] ++ newName ++ [']', ']']

/-- The explicit replacement text `@[${newName}](mention://${newId})`. -/
def explRep (newId newName : Str) : Str :=
  ['@', '['] ++ newName ++ [']', '('] ++ mentionScheme ++ newId ++ [')']

/-- The per-document rewrite: the wikilink replace (line 346) followed by the
explicit replace (line 350) on its result. -/
def rewriteDoc (oldId newName newId : Str) (c : Str) : Str :=
  replExpl oldId (explRep newId newName) (replWiki oldId (wikiRep newId newName) c)

/-- The corpus loop of `updateMentionsForParticipant`: returns the corpus after
the pass, the returned `totalUpdated`, and the ids of the documents passed to
`vault.modify`.  A document's match counts are taken on its pre-rewrite text
and are added to the total only when the text changed (lines 352-356). -/
def updateMentions (oldId newName newId : Str) :
    List (Nat × Str) → List (Nat × Str) × Nat × List Nat
  | [] => ([], 0, [])
  | (i, c) :: fs =>
    let u := rewriteDoc oldId newName newId c
    let res := updateMentions oldId newName newId fs
    if u = c then ((i, c) :: res.1, res.2.1, res.2.2)
    else ((i, u) :: res.1, (cntWiki oldId c + cntExpl oldId c) + res.2.1, i :: res.2.2)

/-! ## The encoder (`selectSuggestion`, lines 541-546) -/

/-- The mention text inserted by `selectSuggestion`: `@[[${id}|${name}]]` when
wikilinks are enabled, `@[${name}](mention://${id})` otherwise.  The code
performs no validation on `id` or `name`. -/
def encodeMention : MForm → Str → Str → Str
  | MForm.wiki, pid, pname => ['@', '[', '['] ++ pid ++ ['|'] ++ pname ++ [']', ']']
  | MForm.expl, pid, pname => ['@', '['] ++ pname ++ [']', '('] ++ mentionScheme ++ pid ++ [')']

/-! ## The identity table builder (`generateParticipantsFromVault`, lines 362-406) -/

/-- `participantsMap.set(id, name)` on a JavaScript `Map` kept as an insertion
ordered association list: update in place when the key exists, append otherwise. -/
def setAssoc (m : List (Str × Str)) (k v : Str) : List (Str × Str) :=
  if m.any (fun p => decide (p.1 = k)) then
    m.map (fun p => if p.1 = k then (k, v) else p)
  else m ++ [(k, v)]

/-- `if (id && name && !participantsMap.has(id)) participantsMap.set(id, name)`
(lines 382-384 and 392-394). -/
def addOcc (m : List (Str × Str)) (o : Occ) : List (Str × Str) :=
  if o.pid ≠ [] ∧ o.pname ≠ [] ∧ m.all (fun p => decide (p.1 ≠ o.pid)) then
    m ++ [(o.pid, o.pname)]
  else m

/-- `generateParticipantsFromVault`: seed the map with the existing
participants, then fold in each document's occurrences, wikilink pass first. -/
def genParticipants (existing : List (Str × Str)) (docs : List Str) : List (Str × Str) :=
  docs.foldl (fun m d => (scanWiki 0 d ++ scanExpl 0 d).foldl addOcc m)
    (existing.foldl (fun m p => setAssoc m p.1 p.2) [])

/-- First-match association lookup (the `Map.get` view of the table). -/
def lookupA (m : List (Str × Str)) (k : Str) : Option Str :=
  (m.find? (fun p => decide (p.1 = k))).map (fun p => p.2)

/-! ## The mention search (`performMentionSearch`, lines 86-168) -/

/-- ASCII lower-casing, the effect of the `i` regex flag and of
`toLowerCase()` on the ASCII range used by ids and queries. -/
def lc (c : Char) : Char :=
  if 'A' ≤ c ∧ c ≤ 'Z' then Char.ofNat (c.toNat + 32) else c

def lcStr (s : Str) : Str := s.map lc

/-- Substring containment, the embedding of `String.includes`. -/
def containsSub (t s : Str) : Bool :=
  match t with
  | [] => (stripPfx s []).isSome
  | _ :: t' => (stripPfx s t).isSome || containsSub t' s

/-- `wikilinkPattern.test(content)` with flags `gi` (line 135-136). -/
def hasWikiCI (pid c : Str) : Bool := decide (cntWiki (lcStr pid) (lcStr c) ≠ 0)

/-- `linkPattern.test(content)` with flags `gi` (line 142-143). -/
def hasExplCI (pid c : Str) : Bool := decide (cntExpl (lcStr pid) (lcStr c) ≠ 0)

/-- Query resolution (lines 95-125): `"me"` resolves through the active user,
who must be a curated participant; any other query selects every participant
whose name or id contains the query case-insensitively.  `none` means the
search returns before reading any document. -/
def resolveIds (parts : List (Str × Str)) (activeUser : Option Str) (q : Str) :
    Option (List Str) :=
  if lcStr q = ['m', 'e'] then
    match activeUser with
    | some uid => if parts.any (fun p => decide (p.1 = uid)) then some [uid] else none
    | none => none
  else
    let ms := parts.filter
      (fun p => containsSub (lcStr p.2) (lcStr q) || containsSub (lcStr p.1) (lcStr q))
    if ms = [] then none else some (ms.map (fun p => p.1))

/-- The per-file loop (lines 128-152): keep a document when some resolved id
matches in either form, case-insensitively. -/
def mentionFilter (ids : List Str) (docs : List (Nat × Str)) : List Nat :=
  (docs.filter (fun d => ids.any (fun pid => hasWikiCI pid d.2 || hasExplCI pid d.2))).map
    (fun d => d.1)

/-- The whole command: resolve the query, then filter the corpus. -/
def performMentionSearch (parts : List (Str × Str)) (activeUser : Option Str)
    (q : Str) (docs : List (Nat × Str)) : Option (List Nat) :=
  match resolveIds parts activeUser q with
  | none => none
  | some ids => some (mentionFilter ids docs)

/-! ## Basic lemmas about `stripPfx` and `grab` -/

theorem stripPfx_self (p r : Str) : stripPfx p (p ++ r) = some r := by
  induction p with
  | nil => rfl
  | cons c p ih => simp [stripPfx, ih]

theorem stripPfx_eq_some {p t r : Str} (h : stripPfx p t = some r) : t = p ++ r := by
  induction p generalizing t with
  | nil =>
    simp only [stripPfx, Option.some.injEq] at h
    simp [h]
  | cons c p ih =>
    cases t with
    | nil => simp [stripPfx] at h
    | cons d t =>
      by_cases hc : c = d
      · subst hc
        simpa using ih (by simpa [stripPfx] using h)
      · simp [stripPfx, hc] at h

theorem stripPfx_length {p t r : Str} (h : stripPfx p t = some r) :
    t.length = p.length + r.length := by
  have := stripPfx_eq_some h
  subst this
  simp

/-- Cancellation across a delimiter that occurs in neither side. -/
theorem append_delim_inj {d : Char} {pid id x y : Str} (hp : d ∉ pid) (hi : d ∉ id)
    (h : id ++ d :: x = pid ++ d :: y) : id = pid ∧ x = y := by
  induction pid generalizing id with
  | nil =>
    cases id with
    | nil => simpa using h
    | cons c is =>
      simp only [List.nil_append, List.cons_append, List.cons.injEq] at h
      exact absurd (h.1 ▸ List.mem_cons_self c is) (by simp_all)
  | cons p ps ih =>
    cases id with
    | nil =>
      simp only [List.nil_append, List.cons_append, List.cons.injEq] at h
      exact absurd h.1 (by intro hdp; exact hp (hdp ▸ List.mem_cons_self p ps))
    | cons c is =>
      simp only [List.cons_append, List.cons.injEq] at h
      obtain ⟨rfl, h2⟩ := h
      have := ih (fun hm => hp (List.mem_cons_of_mem _ hm))
        (fun hm => hi (List.mem_cons_of_mem _ hm)) h2
      exact ⟨by rw [this.1], this.2⟩

theorem grab_join (bad : List Char) (s : Str) : (grab bad s).1 ++ (grab bad s).2 = s := by
  induction s with
  | nil => rfl
  | cons c t ih =>
    by_cases hc : c ∈ bad <;> simp [grab, hc, ih]

theorem grab_of_delim {bad : List Char} {d : Char} (hd : d ∈ bad) (r : Str) :
    grab bad (d :: r) = ([], d :: r) := by
  simp [grab, hd]

theorem grab_fst_clean (bad : List Char) (s : Str) : ∀ c ∈ (grab bad s).1, c ∉ bad := by
  induction s with
  | nil => simp [grab]
  | cons c t ih =>
    intro x hx
    by_cases hc : c ∈ bad
    · rw [grab_of_delim hc] at hx
      simp at hx
    · simp only [grab, if_neg hc] at hx
      rcases List.mem_cons.mp hx with rfl | hx
      · exact hc
      · exact ih x hx

theorem grab_of_clean {bad : List Char} {a : Str} (ha : ∀ c ∈ a, c ∉ bad) (r : Str) :
    grab bad (a ++ r) = (a ++ (grab bad r).1, (grab bad r).2) := by
  induction a with
  | nil => simp
  | cons c a ih =>
    have hc : c ∉ bad := ha c (List.mem_cons_self c a)
    simp [grab, hc, ih (fun x hx => ha x (List.mem_cons_of_mem _ hx))]

theorem grab_clean_delim {bad : List Char} {a : Str} {d : Char}
    (ha : ∀ c ∈ a, c ∉ bad) (hd : d ∈ bad) (r : Str) :
    grab bad (a ++ d :: r) = (a, d :: r) := by
  rw [grab_of_clean ha, grab_of_delim hd]
  simp

theorem grab_snd_length (bad : List Char) (s : Str) : (grab bad s).2.length ≤ s.length := by
  conv_rhs => rw [← grab_join bad s]
  simp

/-! ## Shrinking of the matchers -/

theorem matchWikiP_some {pid t rest : Str} (h : matchWikiP pid t = some rest) :
    ∃ nmr : Str, (∀ c ∈ nmr, c ∉ ([']'] : List Char)) ∧
      t = ['@', '[', '['] ++ pid ++ ['|'] ++ nmr ++ [']', ']'] ++ rest := by
  unfold matchWikiP at h
  cases h1 : stripPfx ('@' :: '[' :: '[' :: (pid ++ ['|'])) t with
  | none => rw [h1] at h; exact absurd h (by simp)
  | some r =>
    rw [h1] at h
    simp only at h
    cases h2 : stripPfx [']', ']'] (grab [']'] r).2 with
    | none => rw [h2] at h; exact absurd h (by simp)
    | some rest' =>
      rw [h2] at h
      simp only [Option.some.injEq] at h
      subst h
      refine ⟨(grab [']'] r).1, grab_fst_clean _ _, ?_⟩
      have ht := stripPfx_eq_some h1
      have hr2 := stripPfx_eq_some h2
      rw [ht]
      conv_lhs => rw [← grab_join [']'] r, hr2]
      simp

theorem matchWikiP_shrinks {pid t rest : Str} (h : matchWikiP pid t = some rest) :
    rest.length < t.length := by
  obtain ⟨nmr, -, ht⟩ := matchWikiP_some h
  rw [ht]
  simp
  omega

theorem matchExplP_some {pid t rest : Str} (h : matchExplP pid t = some rest) :
    ∃ nmr : Str, (∀ c ∈ nmr, c ∉ ([']'] : List Char)) ∧
      t = ['@', '['] ++ nmr ++ [']', '('] ++ mentionScheme ++ pid ++ [')'] ++ rest := by
  unfold matchExplP at h
  cases h1 : stripPfx ['@', '['] t with
  | none => rw [h1] at h; exact absurd h (by simp)
  | some r =>
    rw [h1] at h
    simp only at h
    cases h2 : stripPfx ((']' :: '(' :: mentionScheme) ++ pid ++ [')']) (grab [']'] r).2 with
    | none => rw [h2] at h; exact absurd h (by simp)
    | some rest' =>
      rw [h2] at h
      simp only [Option.some.injEq] at h
      subst h
      refine ⟨(grab [']'] r).1, grab_fst_clean _ _, ?_⟩
      have ht := stripPfx_eq_some h1
      have hr2 := stripPfx_eq_some h2
      rw [ht]
      conv_lhs => rw [← grab_join [']'] r, hr2]
      simp

theorem matchExplP_shrinks {pid t rest : Str} (h : matchExplP pid t = some rest) :
    rest.length < t.length := by
  obtain ⟨nmr, -, ht⟩ := matchExplP_some h
  rw [ht]
  simp
  omega

theorem matchWiki_some {t id nm rest : Str} (h : matchWiki t = some (id, nm, rest)) :
    t = ['@', '[', '['] ++ id ++ ['|'] ++ nm ++ [']', ']'] ++ rest ∧ id ≠ [] ∧ nm ≠ []
      ∧ (∀ c ∈ id, c ∉ ([']', '|'] : List Char)) ∧ (∀ c ∈ nm, c ∉ ([']'] : List Char)) := by
  unfold matchWiki at h
  cases h1 : stripPfx ['@', '[', '['] t with
  | none => rw [h1] at h; exact absurd h (by simp)
  | some r =>
    rw [h1] at h
    simp only at h
    by_cases hid : (grab [']', '|'] r).1 = []
    · rw [if_pos hid] at h; exact absurd h (by simp)
    rw [if_neg hid] at h
    cases h2 : stripPfx ['|'] (grab [']', '|'] r).2 with
    | none => rw [h2] at h; exact absurd h (by simp)
    | some r2 =>
      rw [h2] at h
      simp only at h
      by_cases hnm : (grab [']'] r2).1 = []
      · rw [if_pos hnm] at h; exact absurd h (by simp)
      rw [if_neg hnm] at h
      cases h3 : stripPfx [']', ']'] (grab [']'] r2).2 with
      | none => rw [h3] at h; exact absurd h (by simp)
      | some rest' =>
        rw [h3] at h
        simp only [Option.some.injEq, Prod.mk.injEq] at h
        obtain ⟨rfl, rfl, rfl⟩ := h
        refine ⟨?_, hid, hnm, grab_fst_clean _ _, grab_fst_clean _ _⟩
        have ht := stripPfx_eq_some h1
        have hr2 := stripPfx_eq_some h2
        have hr3 := stripPfx_eq_some h3
        rw [ht]
        conv_lhs => rw [← grab_join [']', '|'] r, hr2, ← grab_join [']'] r2, hr3]
        simp

theorem matchWiki_shrinks {t id nm rest : Str} (h : matchWiki t = some (id, nm, rest)) :
    rest.length < t.length := by
  have ht := (matchWiki_some h).1
  rw [ht]
  simp
  omega

theorem matchExpl_some {t id nm rest : Str} (h : matchExpl t = some (id, nm, rest)) :
    t = ['@', '['] ++ nm ++ [']', '('] ++ mentionScheme ++ id ++ [')'] ++ rest
      ∧ id ≠ [] ∧ nm ≠ []
      ∧ (∀ c ∈ id, c ∉ ([')'] : List Char)) ∧ (∀ c ∈ nm, c ∉ ([']'] : List Char)) := by
  unfold matchExpl at h
  cases h1 : stripPfx ['@', '['] t with
  | none => rw [h1] at h; exact absurd h (by simp)
  | some r =>
    rw [h1] at h
    simp only at h
    by_cases hnm : (grab [']'] r).1 = []
    · rw [if_pos hnm] at h; exact absurd h (by simp)
    rw [if_neg hnm] at h
    cases h2 : stripPfx (']' :: '(' :: mentionScheme) (grab [']'] r).2 with
    | none => rw [h2] at h; exact absurd h (by simp)
    | some r2 =>
      rw [h2] at h
      simp only at h
      by_cases hid : (grab [')'] r2).1 = []
      · rw [if_pos hid] at h; exact absurd h (by simp)
      rw [if_neg hid] at h
      cases h3 : stripPfx [')'] (grab [')'] r2).2 with
      | none => rw [h3] at h; exact absurd h (by simp)
      | some rest' =>
        rw [h3] at h
        simp only [Option.some.injEq, Prod.mk.injEq] at h
        obtain ⟨rfl, rfl, rfl⟩ := h
        refine ⟨?_, hid, hnm, grab_fst_clean _ _, grab_fst_clean _ _⟩
        have ht := stripPfx_eq_some h1
        have hr2 := stripPfx_eq_some h2
        have hr3 := stripPfx_eq_some h3
        rw [ht]
        conv_lhs => rw [← grab_join [']'] r, hr2, ← grab_join [')'] r2, hr3]
        simp

theorem matchExpl_shrinks {t id nm rest : Str} (h : matchExpl t = some (id, nm, rest)) :
    rest.length < t.length := by
  have ht := (matchExpl_some h).1
  rw [ht]
  simp [mentionScheme]
  omega

theorem matchWikiPU_shrinks (pid : Str) : Shrinks (matchWikiPU pid) := by
  intro t a rest h
  unfold matchWikiPU at h
  cases hm : matchWikiP pid t with
  | none => rw [hm] at h; exact absurd h (by simp)
  | some r =>
    rw [hm] at h
    have : r = rest := by simpa using h
    exact this ▸ matchWikiP_shrinks hm

theorem matchExplPU_shrinks (pid : Str) : Shrinks (matchExplPU pid) := by
  intro t a rest h
  unfold matchExplPU at h
  cases hm : matchExplP pid t with
  | none => rw [hm] at h; exact absurd h (by simp)
  | some r =>
    rw [hm] at h
    have : r = rest := by simpa using h
    exact this ▸ matchExplP_shrinks hm

/-! ## Step equations for the fueled scans -/

section Scan

variable {α β : Type} {m : Str → Option (α × Str)} {fM : α → β → β} {fC : Char → β → β} {z : β}

theorem mscanF_congr (hm : Shrinks m) :
    ∀ f g t, t.length ≤ f → t.length ≤ g →
      mscanF m fM fC z f t = mscanF m fM fC z g t := by
  intro f
  induction f with
  | zero =>
    intro g t hf _
    have : t = [] := List.length_eq_zero.mp (Nat.le_zero.mp hf)
    subst this
    cases g <;> rfl
  | succ f ih =>
    intro g t hf hg
    cases t with
    | nil => cases g <;> rfl
    | cons c t' =>
      cases g with
      | zero => simp at hg
      | succ g' =>
        cases hmt : m (c :: t') with
        | none =>
          have h1 : t'.length ≤ f := by simp at hf; omega
          have h2 : t'.length ≤ g' := by simp at hg; omega
          simp only [mscanF, hmt]
          rw [ih g' t' h1 h2]
        | some ar =>
          obtain ⟨a, rest⟩ := ar
          have hlt := hm _ _ _ hmt
          have h1 : rest.length ≤ f := by simp at hlt hf; omega
          have h2 : rest.length ≤ g' := by simp at hlt hg; omega
          simp only [mscanF, hmt]
          rw [ih g' rest h1 h2]

theorem runScan_nil : runScan m fM fC z [] = z := rfl

theorem runScan_match (hm : Shrinks m) {c : Char} {t : Str} {a : α} {rest : Str}
    (h : m (c :: t) = some (a, rest)) :
    runScan m fM fC z (c :: t) = fM a (runScan m fM fC z rest) := by
  have hlt := hm _ _ _ h
  unfold runScan
  simp only [List.length_cons, mscanF, h]
  rw [mscanF_congr hm t.length rest.length rest (by simp at hlt; omega) le_rfl]

theorem runScan_no {c : Char} {t : Str} (h : m (c :: t) = none) :
    runScan m fM fC z (c :: t) = fC c (runScan m fM fC z t) := by
  unfold runScan
  simp only [List.length_cons, mscanF, h]

theorem runScan_clean (hA : ∀ c t', c ≠ '@' → m (c :: t') = none)
    {s : Str} (hs : ∀ c ∈ s, c ≠ '@') (r : Str) :
    runScan m fM fC z (s ++ r) = s.foldr fC (runScan m fM fC z r) := by
  induction s with
  | nil => rfl
  | cons c s ih =>
    have hc : c ≠ '@' := hs c (List.mem_cons_self c s)
    rw [List.cons_append, runScan_no (hA c _ hc), ih (fun x hx => hs x (List.mem_cons_of_mem _ hx))]
    rfl

end Scan

/-- The head character of any match is `'@'`. -/
theorem matchWiki_head {c : Char} {t : Str} (hc : c ≠ '@') : matchWiki (c :: t) = none := by
  unfold matchWiki
  simp [stripPfx, Ne.symm hc]

theorem matchExpl_head {c : Char} {t : Str} (hc : c ≠ '@') : matchExpl (c :: t) = none := by
  unfold matchExpl
  simp [stripPfx, Ne.symm hc]

theorem matchWikiP_head {pid : Str} {c : Char} {t : Str} (hc : c ≠ '@') :
    matchWikiP pid (c :: t) = none := by
  unfold matchWikiP
  simp [stripPfx, Ne.symm hc]

theorem matchExplP_head {pid : Str} {c : Char} {t : Str} (hc : c ≠ '@') :
    matchExplP pid (c :: t) = none := by
  unfold matchExplP
  simp [stripPfx, Ne.symm hc]

theorem matchWikiPU_head {pid : Str} {c : Char} {t : Str} (hc : c ≠ '@') :
    matchWikiPU pid (c :: t) = none := by
  simp [matchWikiPU, matchWikiP_head hc]

theorem matchExplPU_head {pid : Str} {c : Char} {t : Str} (hc : c ≠ '@') :
    matchExplPU pid (c :: t) = none := by
  simp [matchExplPU, matchExplP_head hc]

/-! ## Step equations for the positional scans -/

theorem scanWikiF_congr :
    ∀ f g pos t, t.length ≤ f → t.length ≤ g → scanWikiF f pos t = scanWikiF g pos t := by
  intro f
  induction f with
  | zero =>
    intro g pos t hf _
    have : t = [] := List.length_eq_zero.mp (Nat.le_zero.mp hf)
    subst this
    cases g <;> rfl
  | succ f ih =>
    intro g pos t hf hg
    cases t with
    | nil => cases g <;> rfl
    | cons c t' =>
      cases g with
      | zero => simp at hg
      | succ g' =>
        cases hmt : matchWiki (c :: t') with
        | none =>
          simp only [scanWikiF, hmt]
          rw [ih g' (pos + 1) t' (by simp at hf; omega) (by simp at hg; omega)]
        | some v =>
          obtain ⟨id, nm, rest⟩ := v
          have hlt := matchWiki_shrinks hmt
          simp only [scanWikiF, hmt]
          rw [ih g' _ rest (by simp at hlt hf; omega) (by simp at hlt hg; omega)]

theorem scanWiki_nil (pos : Nat) : scanWiki pos [] = [] := rfl

theorem scanWiki_match {c : Char} {t : Str} {id nm rest : Str} (pos : Nat)
    (h : matchWiki (c :: t) = some (id, nm, rest)) :
    scanWiki pos (c :: t) =
      ⟨pos, MForm.wiki, id, nm⟩ :: scanWiki (pos + ((c :: t).length - rest.length)) rest := by
  have hlt := matchWiki_shrinks h
  unfold scanWiki
  conv_lhs => simp only [List.length_cons, scanWikiF, h]
  rw [scanWikiF_congr t.length rest.length _ rest (by simp at hlt ⊢; omega) le_rfl]
  simp

theorem scanWiki_no {c : Char} {t : Str} (pos : Nat) (h : matchWiki (c :: t) = none) :
    scanWiki pos (c :: t) = scanWiki (pos + 1) t := by
  unfold scanWiki
  simp only [List.length_cons, scanWikiF, h]

theorem scanExplF_congr :
    ∀ f g pos t, t.length ≤ f → t.length ≤ g → scanExplF f pos t = scanExplF g pos t := by
  intro f
  induction f with
  | zero =>
    intro g pos t hf _
    have : t = [] := List.length_eq_zero.mp (Nat.le_zero.mp hf)
    subst this
    cases g <;> rfl
  | succ f ih =>
    intro g pos t hf hg
    cases t with
    | nil => cases g <;> rfl
    | cons c t' =>
      cases g with
      | zero => simp at hg
      | succ g' =>
        cases hmt : matchExpl (c :: t') with
        | none =>
          simp only [scanExplF, hmt]
          rw [ih g' (pos + 1) t' (by simp at hf; omega) (by simp at hg; omega)]
        | some v =>
          obtain ⟨id, nm, rest⟩ := v
          have hlt := matchExpl_shrinks hmt
          simp only [scanExplF, hmt]
          rw [ih g' _ rest (by simp at hlt hf; omega) (by simp at hlt hg; omega)]

theorem scanExpl_nil (pos : Nat) : scanExpl pos [] = [] := rfl

theorem scanExpl_match {c : Char} {t : Str} {id nm rest : Str} (pos : Nat)
    (h : matchExpl (c :: t) = some (id, nm, rest)) :
    scanExpl pos (c :: t) =
      ⟨pos, MForm.expl, id, nm⟩ :: scanExpl (pos + ((c :: t).length - rest.length)) rest := by
  have hlt := matchExpl_shrinks h
  unfold scanExpl
  conv_lhs => simp only [List.length_cons, scanExplF, h]
  rw [scanExplF_congr t.length rest.length _ rest (by simp at hlt ⊢; omega) le_rfl]
  simp

theorem scanExpl_no {c : Char} {t : Str} (pos : Nat) (h : matchExpl (c :: t) = none) :
    scanExpl pos (c :: t) = scanExpl (pos + 1) t := by
  unfold scanExpl
  simp only [List.length_cons, scanExplF, h]

theorem scanWiki_clean {s : Str} (hs : ∀ c ∈ s, c ≠ '@') (pos : Nat) (r : Str) :
    scanWiki pos (s ++ r) = scanWiki (pos + s.length) r := by
  induction s generalizing pos with
  | nil => simp
  | cons c s ih =>
    have hc : c ≠ '@' := hs c (List.mem_cons_self c s)
    rw [List.cons_append, scanWiki_no pos (matchWiki_head hc),
      ih (fun x hx => hs x (List.mem_cons_of_mem _ hx))]
    congr 1
    simp
    omega

theorem scanExpl_clean {s : Str} (hs : ∀ c ∈ s, c ≠ '@') (pos : Nat) (r : Str) :
    scanExpl pos (s ++ r) = scanExpl (pos + s.length) r := by
  induction s generalizing pos with
  | nil => simp
  | cons c s ih =>
    have hc : c ≠ '@' := hs c (List.mem_cons_self c s)
    rw [List.cons_append, scanExpl_no pos (matchExpl_head hc),
      ih (fun x hx => hs x (List.mem_cons_of_mem _ hx))]
    congr 1
    simp
    omega

/-! ## Well-formed documents as segment lists

A document that is an interleaving of mention-free plain text and
well-formed mentions.  The rewrite, count and decode scans all act
segment-wise on such documents; the deliberately small character
alphabets below are exactly what makes the literal embedding of the
interpolated JavaScript regexes faithful (no regex metacharacters, no
`$` in replacement texts) and mentions non-overlapping. -/

theorem stripPfx_append (p q t : Str) :
    stripPfx (p ++ q) t = (stripPfx p t).bind (stripPfx q) := by
  induction p generalizing t with
  | nil => rfl
  | cons c p ih =>
    cases t with
    | nil => rfl
    | cons d t => by_cases hc : c = d <;> simp [stripPfx, hc, ih]

theorem foldr_cons_eq_append (s acc : Str) :
    s.foldr (fun c a => c :: a) acc = s ++ acc := by
  induction s with
  | nil => rfl
  | cons c s ih => simp [ih]

theorem foldr_keep {β : Type} (s : Str) (n : β) :
    s.foldr (fun _ a => a) n = n := by
  induction s with
  | nil => rfl
  | cons c s ih => simp [ih]

inductive Seg
  | plain : Str → Seg
  | wiki : Str → Str → Seg
  | expl : Str → Str → Seg
deriving DecidableEq, Repr

def Seg.render : Seg → Str
  | .plain s => s
  | .wiki id nm => ['@', '[', '['] ++ id ++ ['|'] ++ nm ++ [']', ']']
  | .expl id nm => ['@', '['] ++ nm ++ [']', '('] ++ mentionScheme ++ id ++ [')']

def renderDoc (segs : List Seg) : Str := (segs.map Seg.render).flatten

/-- Characters an id must avoid: the delimiters of both mention forms, `@`
(which marks mention starts), `$` (special in JavaScript replacement
strings) and every regex metacharacter (ids are interpolated verbatim
into `new RegExp(...)` by the source). -/
def badIdChars : List Char :=
  ['@', '[', ']', '|', '(', ')', '$', '.', '*', '+', '?', '^', '\x7b', '\x7d', '\\', '/']

/-- Characters a display name must avoid: the closing delimiter `]`, the
mention-opening characters `@` and `[`, and `$` (special in JavaScript
replacement strings). -/
def badNmChars : List Char := ['@', '[', ']', '$']

def idOk (s : Str) : Prop := s ≠ [] ∧ ∀ c ∈ s, c ∉ badIdChars

def nmOk (s : Str) : Prop := ∀ c ∈ s, c ∉ badNmChars

instance : DecidablePred idOk := fun _ =>
  inferInstanceAs (Decidable (_ ∧ _))

instance : DecidablePred nmOk := fun s =>
  inferInstanceAs (Decidable (∀ c ∈ s, c ∉ badNmChars))

/-- Well-formedness of a segment (the name of a mention may be empty:
the rewrite patterns accept empty cached names). -/
def Seg.Ok : Seg → Prop
  | .plain s => ∀ c ∈ s, c ≠ '@'
  | .wiki id nm => idOk id ∧ nmOk nm
  | .expl id nm => idOk id ∧ nmOk nm

/-- Strict well-formedness: additionally the cached name is nonempty, so
the decoder regexes of `generateParticipantsFromVault` accept the mention. -/
def Seg.OkStrict : Seg → Prop
  | .plain s => ∀ c ∈ s, c ≠ '@'
  | .wiki id nm => idOk id ∧ nmOk nm ∧ nm ≠ []
  | .expl id nm => idOk id ∧ nmOk nm ∧ nm ≠ []

instance : DecidablePred Seg.Ok := fun s =>
  match s with
  | .plain t => inferInstanceAs (Decidable (∀ c ∈ t, c ≠ '@'))
  | .wiki _ _ => inferInstanceAs (Decidable (_ ∧ _))
  | .expl _ _ => inferInstanceAs (Decidable (_ ∧ _))

instance : DecidablePred Seg.OkStrict := fun s =>
  match s with
  | .plain t => inferInstanceAs (Decidable (∀ c ∈ t, c ≠ '@'))
  | .wiki _ _ => inferInstanceAs (Decidable (_ ∧ _))
  | .expl _ _ => inferInstanceAs (Decidable (_ ∧ _))

theorem Seg.OkStrict.toOk : ∀ {s : Seg}, s.OkStrict → s.Ok
  | .plain _, h => h
  | .wiki _ _, h => ⟨h.1, h.2.1⟩
  | .expl _ _, h => ⟨h.1, h.2.1⟩

theorem idOk_ne {s : Str} (h : idOk s) {d : Char} (hd : d ∈ badIdChars) :
    ∀ c ∈ s, c ≠ d := fun c hc he => (h.2 c hc) (he ▸ hd)

theorem nmOk_ne {s : Str} (h : nmOk s) {d : Char} (hd : d ∈ badNmChars) :
    ∀ c ∈ s, c ≠ d := fun c hc he => (h c hc) (he ▸ hd)

/-- The per-segment effect of the wikilink replace of the rewrite. -/
def rewriteSegW (oldId newName newId : Str) : Seg → Seg
  | Seg.wiki id nm => if id = oldId then Seg.wiki newId newName else Seg.wiki id nm
  | s => s

/-- The per-segment effect of the explicit replace of the rewrite. -/
def rewriteSegE (oldId newName newId : Str) : Seg → Seg
  | Seg.expl id nm => if id = oldId then Seg.expl newId newName else Seg.expl id nm
  | s => s

/-- The per-segment effect of the whole rewrite: a mention of `oldId` is
re-encoded as `(newId, newName)` in its own form, everything else is kept. -/
def rewriteSeg (oldId newName newId : Str) : Seg → Seg
  | Seg.wiki id nm => if id = oldId then Seg.wiki newId newName else Seg.wiki id nm
  | Seg.expl id nm => if id = oldId then Seg.expl newId newName else Seg.expl id nm
  | Seg.plain s => Seg.plain s

def isWikiOf (pid : Str) : Seg → Bool
  | Seg.wiki id _ => decide (id = pid)
  | _ => false

def isExplOf (pid : Str) : Seg → Bool
  | Seg.expl id _ => decide (id = pid)
  | _ => false

/-- The wikilink mentions of a segment list, in order. -/
def wikiMentions : List Seg → List (Str × Str) :=
  List.filterMap (fun s => match s with | Seg.wiki id nm => some (id, nm) | _ => none)

/-- The explicit mentions of a segment list, in order. -/
def explMentions : List Seg → List (Str × Str) :=
  List.filterMap (fun s => match s with | Seg.expl id nm => some (id, nm) | _ => none)

theorem renderDoc_nil : renderDoc [] = [] := rfl

theorem renderDoc_cons (s : Seg) (segs : List Seg) :
    renderDoc (s :: segs) = s.render ++ renderDoc segs := by
  simp [renderDoc]

/-! ## Behaviour of the four matchers at the head of each segment kind -/

theorem matchWikiP_at_wiki_eq {pid nm : Str} (hnm : ∀ c ∈ nm, c ≠ ']') (r : Str) :
    matchWikiP pid (Seg.render (Seg.wiki pid nm) ++ r) = some r := by
  have h1 : Seg.render (Seg.wiki pid nm) ++ r
      = ('@' :: '[' :: '[' :: (pid ++ ['|'])) ++ (nm ++ ']' :: ']' :: r) := by
    simp [Seg.render]
  rw [h1]
  unfold matchWikiP
  rw [stripPfx_self]
  simp only
  rw [grab_clean_delim (by simpa using hnm) (by simp) (']' :: r)]
  rw [show (']' :: ']' :: r : Str) = [']', ']'] ++ r from rfl, stripPfx_self]

theorem matchWikiP_at_wiki_ne {pid id nm : Str} (hne : id ≠ pid)
    (hpid : ∀ c ∈ pid, c ≠ '|') (hid : ∀ c ∈ id, c ≠ '|') (r : Str) :
    matchWikiP pid (Seg.render (Seg.wiki id nm) ++ r) = none := by
  have h1 : Seg.render (Seg.wiki id nm) ++ r
      = ('@' :: '[' :: '[' :: []) ++ (id ++ '|' :: (nm ++ ']' :: ']' :: r)) := by
    simp [Seg.render]
  rw [h1]
  unfold matchWikiP
  rw [show ('@' :: '[' :: '[' :: (pid ++ ['|']) : Str)
      = ('@' :: '[' :: '[' :: []) ++ (pid ++ ['|']) from rfl]
  rw [stripPfx_append, stripPfx_self]
  simp only [Option.bind_some]
  cases h2 : stripPfx (pid ++ ['|']) (id ++ '|' :: (nm ++ ']' :: ']' :: r)) with
  | none => simp [h2]
  | some y =>
    exfalso
    have h3 := stripPfx_eq_some h2
    rw [show (pid ++ ['|']) ++ y = pid ++ '|' :: y by simp] at h3
    have := append_delim_inj (fun h => hpid '|' h rfl) (fun h => hid '|' h rfl) h3
    exact hne this.1

theorem matchWikiP_at_expl {pid id nm : Str} (hnm : ∀ c ∈ nm, c ≠ '[') (r : Str) :
    matchWikiP pid (Seg.render (Seg.expl id nm) ++ r) = none := by
  have h1 : Seg.render (Seg.expl id nm) ++ r
      = ('@' :: '[' :: []) ++ (nm ++ ']' :: '(' :: (mentionScheme ++ id ++ ')' :: r)) := by
    simp [Seg.render]
  rw [h1]
  unfold matchWikiP
  rw [show ('@' :: '[' :: '[' :: (pid ++ ['|']) : Str)
      = ('@' :: '[' :: []) ++ ('[' :: (pid ++ ['|'])) from rfl]
  rw [stripPfx_append, stripPfx_self]
  simp only [Option.bind_some]
  cases nm with
  | nil => rfl
  | cons c nm' =>
    have hc : c ≠ '[' := hnm c (List.mem_cons_self c nm')
    simp [stripPfx, Ne.symm hc]

theorem matchExplP_at_expl_eq {pid nm : Str} (hnm : ∀ c ∈ nm, c ≠ ']') (r : Str) :
    matchExplP pid (Seg.render (Seg.expl pid nm) ++ r) = some r := by
  have h1 : Seg.render (Seg.expl pid nm) ++ r
      = ('@' :: '[' :: []) ++ (nm ++ ']' :: ('(' :: mentionScheme ++ pid ++ ')' :: r)) := by
    simp [Seg.render]
  rw [h1]
  unfold matchExplP
  rw [stripPfx_self]
  simp only
  rw [grab_clean_delim (by simpa using hnm) (by simp) _]
  rw [show (']' :: ('(' :: mentionScheme ++ pid ++ ')' :: r) : Str)
      = ((']' :: '(' :: mentionScheme) ++ pid ++ [')']) ++ r by simp, stripPfx_self]

theorem matchExplP_at_expl_ne {pid id nm : Str} (hne : id ≠ pid)
    (hpid : ∀ c ∈ pid, c ≠ ')') (hid : ∀ c ∈ id, c ≠ ')')
    (hnm : ∀ c ∈ nm, c ≠ ']') (r : Str) :
    matchExplP pid (Seg.render (Seg.expl id nm) ++ r) = none := by
  have h1 : Seg.render (Seg.expl id nm) ++ r
      = ('@' :: '[' :: []) ++ (nm ++ ']' :: ('(' :: mentionScheme ++ (id ++ ')' :: r))) := by
    simp [Seg.render]
  rw [h1]
  unfold matchExplP
  rw [stripPfx_self]
  simp only
  rw [grab_clean_delim (by simpa using hnm) (by simp) _]
  rw [show ((']' :: '(' :: mentionScheme) ++ pid ++ [')'] : Str)
      = (']' :: '(' :: mentionScheme) ++ (pid ++ [')']) by simp]
  rw [show (']' :: ('(' :: mentionScheme ++ (id ++ ')' :: r)) : Str)
      = (']' :: '(' :: mentionScheme) ++ (id ++ ')' :: r) by simp]
  rw [stripPfx_append, stripPfx_self]
  cases h2 : stripPfx (pid ++ [')']) (id ++ ')' :: r) with
  | none => simp [h2]
  | some y =>
    exfalso
    have h3 := stripPfx_eq_some h2
    rw [show (pid ++ [')']) ++ y = pid ++ ')' :: y by simp] at h3
    have := append_delim_inj (fun h => hpid ')' h rfl) (fun h => hid ')' h rfl) h3
    exact hne this.1

theorem matchExplP_at_wiki {pid id nm : Str} (hid : ∀ c ∈ id, c ≠ ']')
    (hnm : ∀ c ∈ nm, c ≠ ']') (r : Str) :
    matchExplP pid (Seg.render (Seg.wiki id nm) ++ r) = none := by
  have h1 : Seg.render (Seg.wiki id nm) ++ r
      = ('@' :: '[' :: []) ++ (('[' :: id ++ '|' :: nm) ++ ']' :: (']' :: r)) := by
    simp [Seg.render]
  rw [h1]
  unfold matchExplP
  rw [stripPfx_self]
  simp only
  have hclean : ∀ c ∈ ('[' :: id ++ '|' :: nm : Str), c ∉ ([']'] : List Char) := by
    intro c hc
    simp only [List.cons_append, List.mem_cons, List.mem_append] at hc
    rcases hc with rfl | hc | rfl | hc
    · simp
    · simpa using hid c hc
    · simp
    · simpa using hnm c hc
  rw [grab_clean_delim hclean (by simp) _]
  rw [show ((']' :: '(' :: mentionScheme) ++ pid ++ [')'] : Str)
      = ']' :: '(' :: (mentionScheme ++ pid ++ [')']) by simp]
  simp [stripPfx]

theorem matchWiki_at_wiki {id nm : Str} (hidne : id ≠ [])
    (hid : ∀ c ∈ id, c ∉ ([']', '|'] : List Char)) (hnmne : nm ≠ [])
    (hnm : ∀ c ∈ nm, c ≠ ']') (r : Str) :
    matchWiki (Seg.render (Seg.wiki id nm) ++ r) = some (id, nm, r) := by
  have h1 : Seg.render (Seg.wiki id nm) ++ r
      = (['@', '[', '['] : Str) ++ (id ++ '|' :: (nm ++ ']' :: (']' :: r))) := by
    simp [Seg.render]
  rw [h1]
  unfold matchWiki
  rw [stripPfx_self]
  simp only
  rw [grab_clean_delim hid (by simp) _]
  simp only [if_neg hidne]
  rw [show ('|' :: (nm ++ ']' :: (']' :: r)) : Str) = ['|'] ++ (nm ++ ']' :: (']' :: r)) from rfl,
    stripPfx_self]
  simp only
  rw [grab_clean_delim (by simpa using hnm) (by simp) _]
  simp only [if_neg hnmne]
  rw [show (']' :: (']' :: r) : Str) = [']', ']'] ++ r from rfl, stripPfx_self]

theorem matchWiki_at_expl {id nm : Str} (hnm : ∀ c ∈ nm, c ≠ '[') (r : Str) :
    matchWiki (Seg.render (Seg.expl id nm) ++ r) = none := by
  have h1 : Seg.render (Seg.expl id nm) ++ r
      = ('@' :: '[' :: []) ++ (nm ++ ']' :: '(' :: (mentionScheme ++ id ++ ')' :: r)) := by
    simp [Seg.render]
  rw [h1]
  unfold matchWiki
  rw [show (['@', '[', '['] : Str) = ('@' :: '[' :: []) ++ ['['] from rfl]
  rw [stripPfx_append, stripPfx_self]
  simp only [Option.bind_some]
  cases nm with
  | nil => rfl
  | cons c nm' =>
    have hc : c ≠ '[' := hnm c (List.mem_cons_self c nm')
    simp [stripPfx, Ne.symm hc]

theorem matchExpl_at_expl {id nm : Str} (hidne : id ≠ [])
    (hid : ∀ c ∈ id, c ≠ ')') (hnmne : nm ≠ []) (hnm : ∀ c ∈ nm, c ≠ ']') (r : Str) :
    matchExpl (Seg.render (Seg.expl id nm) ++ r) = some (id, nm, r) := by
  have h1 : Seg.render (Seg.expl id nm) ++ r
      = (['@', '['] : Str) ++ (nm ++ ']' :: ('(' :: mentionScheme ++ (id ++ ')' :: r))) := by
    simp [Seg.render]
  rw [h1]
  unfold matchExpl
  rw [stripPfx_self]
  simp only
  rw [grab_clean_delim (by simpa using hnm) (by simp) _]
  simp only [if_neg hnmne]
  rw [show (']' :: ('(' :: mentionScheme ++ (id ++ ')' :: r)) : Str)
      = (']' :: '(' :: mentionScheme) ++ (id ++ ')' :: r) by simp, stripPfx_self]
  simp only
  rw [grab_clean_delim (by simpa using hid) (by simp) _]
  simp only [if_neg hidne]
  rw [show (')' :: r : Str) = [')'] ++ r from rfl, stripPfx_self]

theorem matchExpl_at_wiki {id nm : Str} (hid : ∀ c ∈ id, c ≠ ']')
    (hnm : ∀ c ∈ nm, c ≠ ']') (r : Str) :
    matchExpl (Seg.render (Seg.wiki id nm) ++ r) = none := by
  have h1 : Seg.render (Seg.wiki id nm) ++ r
      = ('@' :: '[' :: []) ++ (('[' :: id ++ '|' :: nm) ++ ']' :: (']' :: r)) := by
    simp [Seg.render]
  rw [h1]
  unfold matchExpl
  rw [stripPfx_self]
  simp only
  have hclean : ∀ c ∈ ('[' :: id ++ '|' :: nm : Str), c ∉ ([']'] : List Char) := by
    intro c hc
    simp only [List.cons_append, List.mem_cons, List.mem_append] at hc
    rcases hc with rfl | hc | rfl | hc
    · simp
    · simpa using hid c hc
    · simp
    · simpa using hnm c hc
  rw [grab_clean_delim hclean (by simp) _]
  have hne : ('[' :: id ++ '|' :: nm : Str) ≠ [] := by simp
  simp only [if_neg hne]
  simp [stripPfx]

/-! ## Step wrappers for the concrete scans -/

theorem replWiki_step_match {pid rep t rest : Str} (ht : t ≠ [])
    (h : matchWikiP pid t = some rest) :
    replWiki pid rep t = rep ++ replWiki pid rep rest := by
  cases t with
  | nil => exact absurd rfl ht
  | cons c t' =>
    have hu : matchWikiPU pid (c :: t') = some ((), rest) := by simp [matchWikiPU, h]
    exact runScan_match (matchWikiPU_shrinks pid) hu

theorem replWiki_step_no {pid rep : Str} {c : Char} {t : Str}
    (h : matchWikiP pid (c :: t) = none) :
    replWiki pid rep (c :: t) = c :: replWiki pid rep t :=
  runScan_no (by simp [matchWikiPU, h])

theorem replWiki_clean {pid rep s : Str} (hs : ∀ c ∈ s, c ≠ '@') (r : Str) :
    replWiki pid rep (s ++ r) = s ++ replWiki pid rep r := by
  unfold replWiki
  rw [runScan_clean (fun c t' hc => matchWikiPU_head hc) hs, foldr_cons_eq_append]

theorem replExpl_step_match {pid rep t rest : Str} (ht : t ≠ [])
    (h : matchExplP pid t = some rest) :
    replExpl pid rep t = rep ++ replExpl pid rep rest := by
  cases t with
  | nil => exact absurd rfl ht
  | cons c t' =>
    have hu : matchExplPU pid (c :: t') = some ((), rest) := by simp [matchExplPU, h]
    exact runScan_match (matchExplPU_shrinks pid) hu

theorem replExpl_step_no {pid rep : Str} {c : Char} {t : Str}
    (h : matchExplP pid (c :: t) = none) :
    replExpl pid rep (c :: t) = c :: replExpl pid rep t :=
  runScan_no (by simp [matchExplPU, h])

theorem replExpl_clean {pid rep s : Str} (hs : ∀ c ∈ s, c ≠ '@') (r : Str) :
    replExpl pid rep (s ++ r) = s ++ replExpl pid rep r := by
  unfold replExpl
  rw [runScan_clean (fun c t' hc => matchExplPU_head hc) hs, foldr_cons_eq_append]

theorem cntWiki_step_match {pid t rest : Str} (ht : t ≠ [])
    (h : matchWikiP pid t = some rest) :
    cntWiki pid t = cntWiki pid rest + 1 := by
  cases t with
  | nil => exact absurd rfl ht
  | cons c t' =>
    have hu : matchWikiPU pid (c :: t') = some ((), rest) := by simp [matchWikiPU, h]
    exact runScan_match (matchWikiPU_shrinks pid) hu

theorem cntWiki_step_no {pid : Str} {c : Char} {t : Str}
    (h : matchWikiP pid (c :: t) = none) :
    cntWiki pid (c :: t) = cntWiki pid t :=
  runScan_no (by simp [matchWikiPU, h])

theorem cntWiki_clean {pid s : Str} (hs : ∀ c ∈ s, c ≠ '@') (r : Str) :
    cntWiki pid (s ++ r) = cntWiki pid r := by
  unfold cntWiki
  rw [runScan_clean (fun c t' hc => matchWikiPU_head hc) hs, foldr_keep]

theorem cntExpl_step_match {pid t rest : Str} (ht : t ≠ [])
    (h : matchExplP pid t = some rest) :
    cntExpl pid t = cntExpl pid rest + 1 := by
  cases t with
  | nil => exact absurd rfl ht
  | cons c t' =>
    have hu : matchExplPU pid (c :: t') = some ((), rest) := by simp [matchExplPU, h]
    exact runScan_match (matchExplPU_shrinks pid) hu

theorem cntExpl_step_no {pid : Str} {c : Char} {t : Str}
    (h : matchExplP pid (c :: t) = none) :
    cntExpl pid (c :: t) = cntExpl pid t :=
  runScan_no (by simp [matchExplPU, h])

theorem cntExpl_clean {pid s : Str} (hs : ∀ c ∈ s, c ≠ '@') (r : Str) :
    cntExpl pid (s ++ r) = cntExpl pid r := by
  unfold cntExpl
  rw [runScan_clean (fun c t' hc => matchExplPU_head hc) hs, foldr_keep]

theorem scanWiki_step_match {t id nm rest : Str} (pos : Nat) (ht : t ≠ [])
    (h : matchWiki t = some (id, nm, rest)) :
    scanWiki pos t = ⟨pos, MForm.wiki, id, nm⟩ :: scanWiki (pos + (t.length - rest.length)) rest := by
  cases t with
  | nil => exact absurd rfl ht
  | cons c t' => exact scanWiki_match pos h

theorem scanExpl_step_match {t id nm rest : Str} (pos : Nat) (ht : t ≠ [])
    (h : matchExpl t = some (id, nm, rest)) :
    scanExpl pos t = ⟨pos, MForm.expl, id, nm⟩ :: scanExpl (pos + (t.length - rest.length)) rest := by
  cases t with
  | nil => exact absurd rfl ht
  | cons c t' => exact scanExpl_match pos h

/-! ## The renders of mention segments, and their `'@'`-free tails -/

theorem render_wiki_shape (id nm : Str) :
    Seg.render (Seg.wiki id nm) = '@' :: ('[' :: '[' :: (id ++ '|' :: (nm ++ [']', ']']))) := by
  simp [Seg.render]

theorem render_expl_shape (id nm : Str) :
    Seg.render (Seg.expl id nm)
      = '@' :: ('[' :: (nm ++ ']' :: '(' :: (mentionScheme ++ (id ++ [')'])))) := by
  simp [Seg.render]

theorem wiki_tail_clean {id nm : Str} (hid : idOk id) (hnm : nmOk nm) :
    ∀ c ∈ ('[' :: '[' :: (id ++ '|' :: (nm ++ ([']', ']'] : Str))) : Str), c ≠ '@' := by
  have hid' : '@' ∉ id := fun hm => (hid.2 '@' hm) (by decide)
  have hnm' : '@' ∉ nm := fun hm => (hnm '@' hm) (by decide)
  intro c hc heq
  subst heq
  simp [hid', hnm'] at hc

theorem expl_tail_clean {id nm : Str} (hid : idOk id) (hnm : nmOk nm) :
    ∀ c ∈ ('[' :: (nm ++ ']' :: '(' :: (mentionScheme ++ (id ++ [')']))) : Str), c ≠ '@' := by
  have hid' : '@' ∉ id := fun hm => (hid.2 '@' hm) (by decide)
  have hnm' : '@' ∉ nm := fun hm => (hnm '@' hm) (by decide)
  have hms : '@' ∉ mentionScheme := by decide
  intro c hc heq
  subst heq
  simp [hid', hnm', hms] at hc

/-! ## Segment-wise behaviour of the four pattern scans -/

theorem replWiki_segs (oldId newName newId : Str) (hold : idOk oldId)
    (segs : List Seg) (hs : ∀ s ∈ segs, s.Ok) :
    replWiki oldId (wikiRep newId newName) (renderDoc segs)
      = renderDoc (segs.map (rewriteSegW oldId newName newId)) := by
  induction segs with
  | nil => rfl
  | cons seg rest ih =>
    have hseg := hs seg (List.mem_cons_self _ _)
    have hrest : ∀ s ∈ rest, s.Ok := fun s h => hs s (List.mem_cons_of_mem _ h)
    rw [renderDoc_cons, List.map_cons, renderDoc_cons]
    cases seg with
    | plain s =>
      have hp : ∀ c ∈ s, c ≠ '@' := hseg
      rw [show Seg.render (Seg.plain s) = s from rfl, replWiki_clean hp, ih hrest]
      rfl
    | wiki id nm =>
      obtain ⟨hid, hnm⟩ := hseg
      by_cases he : id = oldId
      · subst he
        rw [replWiki_step_match (by simp [Seg.render])
            (matchWikiP_at_wiki_eq (nmOk_ne hnm (by decide)) _), ih hrest]
        rw [show rewriteSegW id newName newId (Seg.wiki id nm)
            = Seg.wiki newId newName by simp [rewriteSegW]]
        rfl
      · rw [render_wiki_shape, List.cons_append,
          replWiki_step_no (by
            rw [← List.cons_append, ← render_wiki_shape]
            exact matchWikiP_at_wiki_ne he (idOk_ne hold (by decide)) (idOk_ne hid (by decide)) _),
          replWiki_clean (wiki_tail_clean hid hnm), ih hrest]
        rw [show rewriteSegW oldId newName newId (Seg.wiki id nm) = Seg.wiki id nm by
          simp [rewriteSegW, he]]
        rw [render_wiki_shape]
        simp
    | expl id nm =>
      obtain ⟨hid, hnm⟩ := hseg
      rw [render_expl_shape, List.cons_append,
        replWiki_step_no (by
          rw [← List.cons_append, ← render_expl_shape]
          exact matchWikiP_at_expl (nmOk_ne hnm (by decide)) _),
        replWiki_clean (expl_tail_clean hid hnm), ih hrest]
      rw [show rewriteSegW oldId newName newId (Seg.expl id nm) = Seg.expl id nm from rfl]
      rw [render_expl_shape]
      simp

theorem replExpl_segs (oldId newName newId : Str) (hold : idOk oldId)
    (segs : List Seg) (hs : ∀ s ∈ segs, s.Ok) :
    replExpl oldId (explRep newId newName) (renderDoc segs)
      = renderDoc (segs.map (rewriteSegE oldId newName newId)) := by
  induction segs with
  | nil => rfl
  | cons seg rest ih =>
    have hseg := hs seg (List.mem_cons_self _ _)
    have hrest : ∀ s ∈ rest, s.Ok := fun s h => hs s (List.mem_cons_of_mem _ h)
    rw [renderDoc_cons, List.map_cons, renderDoc_cons]
    cases seg with
    | plain s =>
      have hp : ∀ c ∈ s, c ≠ '@' := hseg
      rw [show Seg.render (Seg.plain s) = s from rfl, replExpl_clean hp, ih hrest]
      rfl
    | expl id nm =>
      obtain ⟨hid, hnm⟩ := hseg
      by_cases he : id = oldId
      · subst he
        rw [replExpl_step_match (by simp [Seg.render])
            (matchExplP_at_expl_eq (nmOk_ne hnm (by decide)) _), ih hrest]
        rw [show rewriteSegE id newName newId (Seg.expl id nm)
            = Seg.expl newId newName by simp [rewriteSegE]]
        rfl
      · rw [render_expl_shape, List.cons_append,
          replExpl_step_no (by
            rw [← List.cons_append, ← render_expl_shape]
            exact matchExplP_at_expl_ne he (idOk_ne hold (by decide)) (idOk_ne hid (by decide))
              (nmOk_ne hnm (by decide)) _),
          replExpl_clean (expl_tail_clean hid hnm), ih hrest]
        rw [show rewriteSegE oldId newName newId (Seg.expl id nm) = Seg.expl id nm by
          simp [rewriteSegE, he]]
        rw [render_expl_shape]
        simp
    | wiki id nm =>
      obtain ⟨hid, hnm⟩ := hseg
      rw [render_wiki_shape, List.cons_append,
        replExpl_step_no (by
          rw [← List.cons_append, ← render_wiki_shape]
          exact matchExplP_at_wiki (idOk_ne hid (by decide)) (nmOk_ne hnm (by decide)) _),
        replExpl_clean (wiki_tail_clean hid hnm), ih hrest]
      rw [show rewriteSegE oldId newName newId (Seg.wiki id nm) = Seg.wiki id nm from rfl]
      rw [render_wiki_shape]
      simp

theorem cntWiki_segs (oldId : Str) (hold : idOk oldId)
    (segs : List Seg) (hs : ∀ s ∈ segs, s.Ok) :
    cntWiki oldId (renderDoc segs) = segs.countP (isWikiOf oldId) := by
  induction segs with
  | nil => rfl
  | cons seg rest ih =>
    have hseg := hs seg (List.mem_cons_self _ _)
    have hrest : ∀ s ∈ rest, s.Ok := fun s h => hs s (List.mem_cons_of_mem _ h)
    rw [renderDoc_cons]
    cases seg with
    | plain s =>
      have hp : ∀ c ∈ s, c ≠ '@' := hseg
      rw [show Seg.render (Seg.plain s) = s from rfl, cntWiki_clean hp, ih hrest,
        List.countP_cons_of_neg _ _ (by simp [isWikiOf])]
    | wiki id nm =>
      obtain ⟨hid, hnm⟩ := hseg
      by_cases he : id = oldId
      · subst he
        rw [cntWiki_step_match (by simp [Seg.render])
            (matchWikiP_at_wiki_eq (nmOk_ne hnm (by decide)) _), ih hrest,
          List.countP_cons_of_pos _ _ (by simp [isWikiOf])]
      · rw [render_wiki_shape, List.cons_append,
          cntWiki_step_no (by
            rw [← List.cons_append, ← render_wiki_shape]
            exact matchWikiP_at_wiki_ne he (idOk_ne hold (by decide)) (idOk_ne hid (by decide)) _),
          cntWiki_clean (wiki_tail_clean hid hnm), ih hrest,
          List.countP_cons_of_neg _ _ (by simp [isWikiOf, he])]
    | expl id nm =>
      obtain ⟨hid, hnm⟩ := hseg
      rw [render_expl_shape, List.cons_append,
        cntWiki_step_no (by
          rw [← List.cons_append, ← render_expl_shape]
          exact matchWikiP_at_expl (nmOk_ne hnm (by decide)) _),
        cntWiki_clean (expl_tail_clean hid hnm), ih hrest,
        List.countP_cons_of_neg _ _ (by simp [isWikiOf])]

theorem cntExpl_segs (oldId : Str) (hold : idOk oldId)
    (segs : List Seg) (hs : ∀ s ∈ segs, s.Ok) :
    cntExpl oldId (renderDoc segs) = segs.countP (isExplOf oldId) := by
  induction segs with
  | nil => rfl
  | cons seg rest ih =>
    have hseg := hs seg (List.mem_cons_self _ _)
    have hrest : ∀ s ∈ rest, s.Ok := fun s h => hs s (List.mem_cons_of_mem _ h)
    rw [renderDoc_cons]
    cases seg with
    | plain s =>
      have hp : ∀ c ∈ s, c ≠ '@' := hseg
      rw [show Seg.render (Seg.plain s) = s from rfl, cntExpl_clean hp, ih hrest,
        List.countP_cons_of_neg _ _ (by simp [isExplOf])]
    | expl id nm =>
      obtain ⟨hid, hnm⟩ := hseg
      by_cases he : id = oldId
      · subst he
        rw [cntExpl_step_match (by simp [Seg.render])
            (matchExplP_at_expl_eq (nmOk_ne hnm (by decide)) _), ih hrest,
          List.countP_cons_of_pos _ _ (by simp [isExplOf])]
      · rw [render_expl_shape, List.cons_append,
          cntExpl_step_no (by
            rw [← List.cons_append, ← render_expl_shape]
            exact matchExplP_at_expl_ne he (idOk_ne hold (by decide)) (idOk_ne hid (by decide))
              (nmOk_ne hnm (by decide)) _),
          cntExpl_clean (expl_tail_clean hid hnm), ih hrest,
          List.countP_cons_of_neg _ _ (by simp [isExplOf, he])]
    | wiki id nm =>
      obtain ⟨hid, hnm⟩ := hseg
      rw [render_wiki_shape, List.cons_append,
        cntExpl_step_no (by
          rw [← List.cons_append, ← render_wiki_shape]
          exact matchExplP_at_wiki (idOk_ne hid (by decide)) (nmOk_ne hnm (by decide)) _),
        cntExpl_clean (wiki_tail_clean hid hnm), ih hrest,
        List.countP_cons_of_neg _ _ (by simp [isExplOf])]

/-! ## Segment-wise behaviour of the decoder scans -/

theorem scanWiki_segs (segs : List Seg) (hs : ∀ s ∈ segs, s.OkStrict) :
    ∀ pos, (scanWiki pos (renderDoc segs)).map (fun o => (o.pid, o.pname))
      = wikiMentions segs := by
  induction segs with
  | nil => intro pos; rfl
  | cons seg rest ih =>
    have hseg := hs seg (List.mem_cons_self _ _)
    have hrest : ∀ s ∈ rest, s.OkStrict := fun s h => hs s (List.mem_cons_of_mem _ h)
    intro pos
    rw [renderDoc_cons]
    cases seg with
    | plain s =>
      have hp : ∀ c ∈ s, c ≠ '@' := hseg
      rw [show Seg.render (Seg.plain s) = s from rfl, scanWiki_clean hp, ih hrest]
      rfl
    | wiki id nm =>
      obtain ⟨hid, hnm, hnmne⟩ := hseg
      rw [scanWiki_step_match pos (by simp [Seg.render])
          (matchWiki_at_wiki hid.1
            (fun c hc => by
              simpa using ⟨idOk_ne hid (by decide) c hc, idOk_ne hid (by decide) c hc⟩)
            hnmne (nmOk_ne hnm (by decide)) _)]
      rw [List.map_cons, ih hrest]
      rfl
    | expl id nm =>
      obtain ⟨hid, hnm, hnmne⟩ := hseg
      rw [render_expl_shape, List.cons_append,
        scanWiki_no pos (by
          rw [← List.cons_append, ← render_expl_shape]
          exact matchWiki_at_expl (nmOk_ne hnm (by decide)) _),
        scanWiki_clean (expl_tail_clean hid hnm), ih hrest]
      rfl

theorem scanExpl_segs (segs : List Seg) (hs : ∀ s ∈ segs, s.OkStrict) :
    ∀ pos, (scanExpl pos (renderDoc segs)).map (fun o => (o.pid, o.pname))
      = explMentions segs := by
  induction segs with
  | nil => intro pos; rfl
  | cons seg rest ih =>
    have hseg := hs seg (List.mem_cons_self _ _)
    have hrest : ∀ s ∈ rest, s.OkStrict := fun s h => hs s (List.mem_cons_of_mem _ h)
    intro pos
    rw [renderDoc_cons]
    cases seg with
    | plain s =>
      have hp : ∀ c ∈ s, c ≠ '@' := hseg
      rw [show Seg.render (Seg.plain s) = s from rfl, scanExpl_clean hp, ih hrest]
      rfl
    | expl id nm =>
      obtain ⟨hid, hnm, hnmne⟩ := hseg
      rw [scanExpl_step_match pos (by simp [Seg.render])
          (matchExpl_at_expl hid.1 (idOk_ne hid (by decide)) hnmne
            (nmOk_ne hnm (by decide)) _)]
      rw [List.map_cons, ih hrest]
      rfl
    | wiki id nm =>
      obtain ⟨hid, hnm, hnmne⟩ := hseg
      rw [render_wiki_shape, List.cons_append,
        scanExpl_no pos (by
          rw [← List.cons_append, ← render_wiki_shape]
          exact matchExpl_at_wiki (idOk_ne hid (by decide)) (nmOk_ne hnm (by decide)) _),
        scanExpl_clean (wiki_tail_clean hid hnm), ih hrest]
      rfl

/-! ## Texts without a given two-character sequence

A wikilink decoder match always contains the two consecutive characters
`]]`, and an explicit decoder match always contains `](`.  A text that
nowhere contains the sequence therefore yields an empty scan — the tool for
proving that decoding a wikilink mention finds no explicit mention and
vice versa. -/

def NoPair (a b : Char) (t : Str) : Prop := ∀ x y : Str, t ≠ x ++ a :: b :: y

theorem noPair_nil {a b : Char} : NoPair a b [] := by
  intro x y h
  simp at h

theorem NoPair.tail {a b c : Char} {t : Str} (h : NoPair a b (c :: t)) : NoPair a b t := by
  intro x y heq
  exact h (c :: x) y (by simp [heq])

theorem NoPair.cons {a b c : Char} {t : Str} (h : NoPair a b t)
    (hc : ¬(c = a ∧ ∃ y, t = b :: y)) : NoPair a b (c :: t) := by
  intro x y heq
  cases x with
  | nil =>
    simp only [List.nil_append, List.cons.injEq] at heq
    exact hc ⟨heq.1, y, heq.2⟩
  | cons d x' =>
    simp only [List.cons_append, List.cons.injEq] at heq
    exact h x' y heq.2

theorem noPair_append {a b : Char} {s r : Str} (hs : a ∉ s) (hr : NoPair a b r) :
    NoPair a b (s ++ r) := by
  induction s with
  | nil => simpa using hr
  | cons c s ih =>
    have hc : c ≠ a := fun he => hs (he ▸ List.mem_cons_self c s)
    rw [List.cons_append]
    exact (ih (fun hm => hs (List.mem_cons_of_mem _ hm))).cons (fun hand => hc hand.1)

theorem matchWiki_pair {t : Str} {v : Str × Str × Str} (h : matchWiki t = some v) :
    ∃ x y : Str, t = x ++ ']' :: ']' :: y := by
  obtain ⟨id, nm, rest⟩ := v
  obtain ⟨ht, -, -, -, -⟩ := matchWiki_some h
  exact ⟨['@', '[', '['] ++ id ++ ['|'] ++ nm, rest, by simp [ht]⟩

theorem matchExpl_pair {t : Str} {v : Str × Str × Str} (h : matchExpl t = some v) :
    ∃ x y : Str, t = x ++ ']' :: '(' :: y := by
  obtain ⟨id, nm, rest⟩ := v
  obtain ⟨ht, -, -, -, -⟩ := matchExpl_some h
  exact ⟨['@', '['] ++ nm, mentionScheme ++ id ++ [')'] ++ rest, by simp [ht]⟩

theorem scanWiki_eq_nil {t : Str} (h : NoPair ']' ']' t) (pos : Nat) :
    scanWiki pos t = [] := by
  induction t generalizing pos with
  | nil => rfl
  | cons c t' ih =>
    cases hm : matchWiki (c :: t') with
    | some v =>
      obtain ⟨x, y, heq⟩ := matchWiki_pair hm
      exact absurd heq (h x y)
    | none =>
      rw [scanWiki_no pos hm]
      exact ih h.tail (pos + 1)

theorem scanExpl_eq_nil {t : Str} (h : NoPair ']' '(' t) (pos : Nat) :
    scanExpl pos t = [] := by
  induction t generalizing pos with
  | nil => rfl
  | cons c t' ih =>
    cases hm : matchExpl (c :: t') with
    | some v =>
      obtain ⟨x, y, heq⟩ := matchExpl_pair hm
      exact absurd heq (h x y)
    | none =>
      rw [scanExpl_no pos hm]
      exact ih h.tail (pos + 1)

/-! ## Monotonicity of the occurrence offsets within each scan -/

theorem scanWiki_mono : ∀ (n : Nat) (t : Str) (pos : Nat), t.length ≤ n →
    (∀ o ∈ scanWiki pos t, pos ≤ o.start) ∧
      List.Chain' (fun a b => a < b) ((scanWiki pos t).map Occ.start) := by
  intro n
  induction n with
  | zero =>
    intro t pos h
    have : t = [] := List.length_eq_zero.mp (Nat.le_zero.mp h)
    subst this
    simp [scanWiki_nil]
  | succ n ih =>
    intro t pos h
    cases t with
    | nil => simp [scanWiki_nil]
    | cons c t' =>
      cases hm : matchWiki (c :: t') with
      | none =>
        rw [scanWiki_no pos hm]
        have hrec := ih t' (pos + 1) (by simp at h; omega)
        exact ⟨fun o ho => le_trans (by omega) (hrec.1 o ho), hrec.2⟩
      | some v =>
        obtain ⟨id, nm, rest⟩ := v
        have hlt := matchWiki_shrinks hm
        rw [scanWiki_match pos hm]
        have hcons : 1 ≤ (c :: t').length - rest.length := by simp at hlt ⊢; omega
        have hrec := ih rest (pos + ((c :: t').length - rest.length))
          (by simp at hlt h ⊢; omega)
        constructor
        · intro o ho
          rcases List.mem_cons.mp ho with rfl | ho
          · exact le_rfl
          · exact le_trans (by omega) (hrec.1 o ho)
        · rw [List.map_cons]
          rw [List.chain'_cons']
          refine ⟨?_, hrec.2⟩
          intro b hb
          have hbmem : b ∈ (scanWiki (pos + ((c :: t').length - rest.length)) rest).map Occ.start :=
            List.mem_of_mem_head? hb
          obtain ⟨o, ho, rfl⟩ := List.mem_map.mp hbmem
          have := hrec.1 o ho
          simp only
          omega

theorem scanExpl_mono : ∀ (n : Nat) (t : Str) (pos : Nat), t.length ≤ n →
    (∀ o ∈ scanExpl pos t, pos ≤ o.start) ∧
      List.Chain' (fun a b => a < b) ((scanExpl pos t).map Occ.start) := by
  intro n
  induction n with
  | zero =>
    intro t pos h
    have : t = [] := List.length_eq_zero.mp (Nat.le_zero.mp h)
    subst this
    simp [scanExpl_nil]
  | succ n ih =>
    intro t pos h
    cases t with
    | nil => simp [scanExpl_nil]
    | cons c t' =>
      cases hm : matchExpl (c :: t') with
      | none =>
        rw [scanExpl_no pos hm]
        have hrec := ih t' (pos + 1) (by simp at h; omega)
        exact ⟨fun o ho => le_trans (by omega) (hrec.1 o ho), hrec.2⟩
      | some v =>
        obtain ⟨id, nm, rest⟩ := v
        have hlt := matchExpl_shrinks hm
        rw [scanExpl_match pos hm]
        have hcons : 1 ≤ (c :: t').length - rest.length := by simp at hlt ⊢; omega
        have hrec := ih rest (pos + ((c :: t').length - rest.length))
          (by simp at hlt h ⊢; omega)
        constructor
        · intro o ho
          rcases List.mem_cons.mp ho with rfl | ho
          · exact le_rfl
          · exact le_trans (by omega) (hrec.1 o ho)
        · rw [List.map_cons]
          rw [List.chain'_cons']
          refine ⟨?_, hrec.2⟩
          intro b hb
          have hbmem : b ∈ (scanExpl (pos + ((c :: t').length - rest.length)) rest).map Occ.start :=
            List.mem_of_mem_head? hb
          obtain ⟨o, ho, rfl⟩ := List.mem_map.mp hbmem
          have := hrec.1 o ho
          simp only
          omega

/-! ## The whole per-document rewrite, segment-wise -/

theorem rewriteSegE_after_W (oldId newName newId : Str) (s : Seg) :
    rewriteSegE oldId newName newId (rewriteSegW oldId newName newId s)
      = rewriteSeg oldId newName newId s := by
  cases s with
  | plain t => rfl
  | wiki id nm =>
    by_cases he : id = oldId <;> simp [rewriteSegW, rewriteSegE, rewriteSeg, he]
  | expl id nm =>
    by_cases he : id = oldId <;> simp [rewriteSegW, rewriteSegE, rewriteSeg, he]

theorem rewriteSegW_ok {oldId newName newId : Str} (hnew : idOk newId) (hnm : nmOk newName)
    {s : Seg} (hs : s.Ok) : (rewriteSegW oldId newName newId s).Ok := by
  cases s with
  | plain t => exact hs
  | wiki id nm =>
    by_cases he : id = oldId
    · simpa [rewriteSegW, he] using ⟨hnew, hnm⟩
    · simpa [rewriteSegW, he] using hs
  | expl id nm => exact hs

theorem rewriteSeg_ok {oldId newName newId : Str} (hnew : idOk newId) (hnm : nmOk newName)
    {s : Seg} (hs : s.Ok) : (rewriteSeg oldId newName newId s).Ok := by
  cases s with
  | plain t => exact hs
  | wiki id nm =>
    by_cases he : id = oldId
    · simpa [rewriteSeg, he] using ⟨hnew, hnm⟩
    · simpa [rewriteSeg, he] using hs
  | expl id nm =>
    by_cases he : id = oldId
    · simpa [rewriteSeg, he] using ⟨hnew, hnm⟩
    · simpa [rewriteSeg, he] using hs

theorem rewriteSeg_idem (oldId newName newId : Str)
    (s : Seg) : rewriteSeg oldId newName newId (rewriteSeg oldId newName newId s)
      = rewriteSeg oldId newName newId s := by
  cases s with
  | plain t => rfl
  | wiki id nm =>
    by_cases he : id = oldId
    · by_cases he2 : newId = oldId <;> simp [rewriteSeg, he, he2]
    · simp [rewriteSeg, he]
  | expl id nm =>
    by_cases he : id = oldId
    · by_cases he2 : newId = oldId <;> simp [rewriteSeg, he, he2]
    · simp [rewriteSeg, he]

/-- The rewrite of `updateMentionsForParticipant` acts segment-wise on a
well-formed document: mentions of `oldId` are re-encoded in their own form,
everything else is untouched. -/
theorem rewriteDoc_segs (oldId newName newId : Str) (hold : idOk oldId)
    (hnew : idOk newId) (hnm : nmOk newName)
    (segs : List Seg) (hs : ∀ s ∈ segs, s.Ok) :
    rewriteDoc oldId newName newId (renderDoc segs)
      = renderDoc (segs.map (rewriteSeg oldId newName newId)) := by
  unfold rewriteDoc
  rw [show wikiRep newId newName = wikiRep newId newName from rfl]
  rw [replWiki_segs oldId newName newId hold segs hs]
  have hs' : ∀ s ∈ segs.map (rewriteSegW oldId newName newId), s.Ok := by
    intro s hmem
    obtain ⟨s0, h0, rfl⟩ := List.mem_map.mp hmem
    exact rewriteSegW_ok hnew hnm (hs s0 h0)
  rw [replExpl_segs oldId newName newId hold _ hs']
  rw [List.map_map]
  congr 1
  apply List.map_congr_left
  intro s _
  exact rewriteSegE_after_W oldId newName newId s

/-! ## The corpus loop of `updateMentionsForParticipant`, unrolled -/

theorem updateMentions_eq (oldId newName newId : Str) (docs : List (Nat × Str)) :
    updateMentions oldId newName newId docs
      = (docs.map (fun p => (p.1, rewriteDoc oldId newName newId p.2)),
         (docs.map (fun p => if rewriteDoc oldId newName newId p.2 = p.2 then 0
            else cntWiki oldId p.2 + cntExpl oldId p.2)).sum,
         (docs.filter (fun p => decide (rewriteDoc oldId newName newId p.2 ≠ p.2))).map
           (fun p => p.1)) := by
  induction docs with
  | nil => rfl
  | cons d ds ih =>
    obtain ⟨i, c⟩ := d
    by_cases h : rewriteDoc oldId newName newId c = c <;>
      simp [updateMentions, ih, h]

/-! ## Lower-casing (the `i` regex flag and `toLowerCase`) -/

theorem charOfNat_toNat {n : Nat} (h : n < 55296) : (Char.ofNat n).toNat = n := by
  unfold Char.ofNat
  split
  · simp [Char.toNat, Char.ofNatAux, UInt32.toNat]
  · rename_i hv
    exact absurd (Or.inl h) hv

theorem lc_toNat_of_upper {c : Char} (h : 'A' ≤ c ∧ c ≤ 'Z') :
    (lc c).toNat = c.toNat + 32 := by
  have h90 : c.toNat ≤ 90 := h.2
  rw [lc, if_pos h]
  exact charOfNat_toNat (by omega)

theorem lc_eq_self_of_not_upper {c : Char} (h : ¬('A' ≤ c ∧ c ≤ 'Z')) : lc c = c := by
  rw [lc, if_neg h]

theorem badId_toNat : ∀ b ∈ badIdChars, b.toNat < 97 ∨ 122 < b.toNat := by decide

theorem badNm_toNat : ∀ b ∈ badNmChars, b.toNat < 97 ∨ 122 < b.toNat := by decide

theorem lc_notBadId {c : Char} (h : c ∉ badIdChars) : lc c ∉ badIdChars := by
  by_cases hr : 'A' ≤ c ∧ c ≤ 'Z'
  · intro hmem
    have h65 : 65 ≤ c.toNat := hr.1
    have h90 : c.toNat ≤ 90 := hr.2
    have htn := lc_toNat_of_upper hr
    have := badId_toNat (lc c) hmem
    omega
  · rw [lc_eq_self_of_not_upper hr]
    exact h

theorem lc_notBadNm {c : Char} (h : c ∉ badNmChars) : lc c ∉ badNmChars := by
  by_cases hr : 'A' ≤ c ∧ c ≤ 'Z'
  · intro hmem
    have h65 : 65 ≤ c.toNat := hr.1
    have h90 : c.toNat ≤ 90 := hr.2
    have htn := lc_toNat_of_upper hr
    have := badNm_toNat (lc c) hmem
    omega
  · rw [lc_eq_self_of_not_upper hr]
    exact h

theorem lc_ne_at {c : Char} (h : c ≠ '@') : lc c ≠ '@' := by
  by_cases hr : 'A' ≤ c ∧ c ≤ 'Z'
  · intro hmem
    have h65 : 65 ≤ c.toNat := hr.1
    have htn := lc_toNat_of_upper hr
    have : (lc c).toNat = 64 := by rw [hmem]; decide
    omega
  · rw [lc_eq_self_of_not_upper hr]
    exact h

/-- Lower-casing a segment. -/
def lcSeg : Seg → Seg
  | Seg.plain s => Seg.plain (lcStr s)
  | Seg.wiki id nm => Seg.wiki (lcStr id) (lcStr nm)
  | Seg.expl id nm => Seg.expl (lcStr id) (lcStr nm)

theorem lcStr_render (s : Seg) : lcStr (Seg.render s) = Seg.render (lcSeg s) := by
  have h1 : lc '@' = '@' := by decide
  have h2 : lc '[' = '[' := by decide
  have h3 : lc ']' = ']' := by decide
  have h4 : lc '|' = '|' := by decide
  have h5 : lc '(' = '(' := by decide
  have h6 : lc ')' = ')' := by decide
  have h7 : lcStr mentionScheme = mentionScheme := by decide
  cases s with
  | plain t => rfl
  | wiki id nm => simp [Seg.render, lcSeg, lcStr, h1, h2, h3, h4]
  | expl id nm =>
    simp only [Seg.render, lcSeg, lcStr] at h7 ⊢
    simp [h1, h2, h3, h5, h6, h7]

theorem lcStr_renderDoc (segs : List Seg) :
    lcStr (renderDoc segs) = renderDoc (segs.map lcSeg) := by
  induction segs with
  | nil => rfl
  | cons s segs ih =>
    rw [renderDoc_cons, List.map_cons, renderDoc_cons, ← ih, ← lcStr_render]
    simp [lcStr]

theorem lcStr_eq_nil {s : Str} : lcStr s = [] ↔ s = [] := by
  simp [lcStr]

theorem idOk_lc {s : Str} (h : idOk s) : idOk (lcStr s) := by
  refine ⟨by simpa [lcStr_eq_nil] using h.1, ?_⟩
  intro c hc
  obtain ⟨c0, hc0, rfl⟩ := List.mem_map.mp hc
  exact lc_notBadId (h.2 c0 hc0)

theorem nmOk_lc {s : Str} (h : nmOk s) : nmOk (lcStr s) := by
  intro c hc
  obtain ⟨c0, hc0, rfl⟩ := List.mem_map.mp hc
  exact lc_notBadNm (h c0 hc0)

theorem lcSeg_ok {s : Seg} (h : s.Ok) : (lcSeg s).Ok := by
  cases s with
  | plain t =>
    intro c hc
    obtain ⟨c0, hc0, rfl⟩ := List.mem_map.mp hc
    exact lc_ne_at (h c0 hc0)
  | wiki id nm => exact ⟨idOk_lc h.1, nmOk_lc h.2⟩
  | expl id nm => exact ⟨idOk_lc h.1, nmOk_lc h.2⟩

theorem lcSeg_okStrict {s : Seg} (h : s.OkStrict) : (lcSeg s).OkStrict := by
  cases s with
  | plain t =>
    intro c hc
    obtain ⟨c0, hc0, rfl⟩ := List.mem_map.mp hc
    exact lc_ne_at (h c0 hc0)
  | wiki id nm => exact ⟨idOk_lc h.1, nmOk_lc h.2.1, by simpa [lcStr_eq_nil] using h.2.2⟩
  | expl id nm => exact ⟨idOk_lc h.1, nmOk_lc h.2.1, by simpa [lcStr_eq_nil] using h.2.2⟩

/-! ## The identity table builder -/

theorem setAssoc_of_not_mem {m : List (Str × Str)} {k : Str} (v : Str)
    (h : ∀ q ∈ m, q.1 ≠ k) : setAssoc m k v = m ++ [(k, v)] := by
  unfold setAssoc
  rw [if_neg]
  simp only [List.any_eq_true, decide_eq_true_eq, not_exists, not_and]
  intro q hq
  exact h q hq

theorem foldl_setAssoc {l : List (Str × Str)} :
    ∀ acc : List (Str × Str), (∀ p ∈ l, ∀ q ∈ acc, q.1 ≠ p.1) →
      (l.map Prod.fst).Nodup →
      l.foldl (fun m p => setAssoc m p.1 p.2) acc = acc ++ l := by
  induction l with
  | nil => intro acc _ _; simp
  | cons p l' ih =>
    intro acc hd hnd
    rw [List.map_cons, List.nodup_cons] at hnd
    rw [List.foldl_cons, setAssoc_of_not_mem p.2 (hd p (List.mem_cons_self _ _))]
    rw [ih (acc ++ [p]) ?_ hnd.2]
    · simp
    · intro p' hp' q hq
      rcases List.mem_append.mp hq with hq | hq
      · exact hd p' (List.mem_cons_of_mem _ hp') q hq
      · have hqp : q = p := by simpa using hq
        subst hqp
        intro he
        exact hnd.1 (by
          rw [he]
          exact List.mem_map.mpr ⟨p', hp', rfl⟩)

theorem lookupA_of_mem {m : List (Str × Str)} {k v : Str}
    (hnd : (m.map Prod.fst).Nodup) (hmem : (k, v) ∈ m) : lookupA m k = some v := by
  induction m with
  | nil => simp at hmem
  | cons p m' ih =>
    rw [List.map_cons, List.nodup_cons] at hnd
    rcases List.mem_cons.mp hmem with rfl | hmem
    · simp [lookupA, List.find?_cons]
    · have hk : p.1 ≠ k := by
        intro he
        exact hnd.1 (by
          rw [he]
          exact List.mem_map.mpr ⟨(k, v), hmem, rfl⟩)
      have hf : (decide (p.1 = k)) = false := by simp [hk]
      unfold lookupA
      rw [List.find?_cons, hf]
      exact ih hnd.2 hmem

theorem lookupA_append_left {m m' : List (Str × Str)} {k v : Str}
    (h : lookupA m k = some v) : lookupA (m ++ m') k = some v := by
  unfold lookupA at h ⊢
  cases hf : m.find? (fun p => decide (p.1 = k)) with
  | none => rw [hf] at h; simp at h
  | some p =>
    rw [hf] at h
    rw [List.find?_append, hf]
    simpa using h

theorem lookupA_addOcc {m : List (Str × Str)} {k v : Str} (o : Occ)
    (h : lookupA m k = some v) : lookupA (addOcc m o) k = some v := by
  unfold addOcc
  split
  · exact lookupA_append_left h
  · exact h

theorem lookupA_foldl_addOcc {occs : List Occ} :
    ∀ {m : List (Str × Str)} {k v : Str}, lookupA m k = some v →
      lookupA (occs.foldl addOcc m) k = some v := by
  induction occs with
  | nil => intro m k v h; exact h
  | cons o occs ih =>
    intro m k v h
    rw [List.foldl_cons]
    exact ih (lookupA_addOcc o h)

theorem lookupA_genP_fold {docs : List Str} :
    ∀ {m : List (Str × Str)} {k v : Str}, lookupA m k = some v →
      lookupA (docs.foldl (fun m d => (scanWiki 0 d ++ scanExpl 0 d).foldl addOcc m) m) k
        = some v := by
  induction docs with
  | nil => intro m k v h; exact h
  | cons d docs ih =>
    intro m k v h
    rw [List.foldl_cons]
    exact ih (lookupA_foldl_addOcc h)

/-! ## Bridges between counts, mention lists and decoded occurrences -/

theorem countP_wikiMentions (pid : Str) (segs : List Seg) :
    (wikiMentions segs).countP (fun pr => decide (pr.1 = pid)) = segs.countP (isWikiOf pid) := by
  induction segs with
  | nil => rfl
  | cons s segs ih =>
    cases s with
    | plain t =>
      rw [show wikiMentions (Seg.plain t :: segs) = wikiMentions segs from rfl, ih,
        List.countP_cons_of_neg _ _ (by simp [isWikiOf])]
    | wiki id nm =>
      rw [show wikiMentions (Seg.wiki id nm :: segs) = (id, nm) :: wikiMentions segs from rfl]
      by_cases he : id = pid
      · rw [List.countP_cons_of_pos _ _ (by simp [he]),
          List.countP_cons_of_pos _ _ (by simp [isWikiOf, he]), ih]
      · rw [List.countP_cons_of_neg _ _ (by simp [he]),
          List.countP_cons_of_neg _ _ (by simp [isWikiOf, he]), ih]
    | expl id nm =>
      rw [show wikiMentions (Seg.expl id nm :: segs) = wikiMentions segs from rfl, ih,
        List.countP_cons_of_neg _ _ (by simp [isWikiOf])]

theorem countP_explMentions (pid : Str) (segs : List Seg) :
    (explMentions segs).countP (fun pr => decide (pr.1 = pid)) = segs.countP (isExplOf pid) := by
  induction segs with
  | nil => rfl
  | cons s segs ih =>
    cases s with
    | plain t =>
      rw [show explMentions (Seg.plain t :: segs) = explMentions segs from rfl, ih,
        List.countP_cons_of_neg _ _ (by simp [isExplOf])]
    | expl id nm =>
      rw [show explMentions (Seg.expl id nm :: segs) = (id, nm) :: explMentions segs from rfl]
      by_cases he : id = pid
      · rw [List.countP_cons_of_pos _ _ (by simp [he]),
          List.countP_cons_of_pos _ _ (by simp [isExplOf, he]), ih]
      · rw [List.countP_cons_of_neg _ _ (by simp [he]),
          List.countP_cons_of_neg _ _ (by simp [isExplOf, he]), ih]
    | wiki id nm =>
      rw [show explMentions (Seg.wiki id nm :: segs) = explMentions segs from rfl, ih,
        List.countP_cons_of_neg _ _ (by simp [isExplOf])]

theorem mem_wikiMentions {segs : List Seg} {a b : Str} :
    (a, b) ∈ wikiMentions segs ↔ Seg.wiki a b ∈ segs := by
  unfold wikiMentions
  rw [List.mem_filterMap]
  constructor
  · rintro ⟨s, hs, hmatch⟩
    cases s with
    | plain t => simp at hmatch
    | wiki id nm =>
      simp only [Option.some.injEq, Prod.mk.injEq] at hmatch
      obtain ⟨rfl, rfl⟩ := hmatch
      exact hs
    | expl id nm => simp at hmatch
  · intro h
    exact ⟨_, h, rfl⟩

theorem mem_explMentions {segs : List Seg} {a b : Str} :
    (a, b) ∈ explMentions segs ↔ Seg.expl a b ∈ segs := by
  unfold explMentions
  rw [List.mem_filterMap]
  constructor
  · rintro ⟨s, hs, hmatch⟩
    cases s with
    | plain t => simp at hmatch
    | expl id nm =>
      simp only [Option.some.injEq, Prod.mk.injEq] at hmatch
      obtain ⟨rfl, rfl⟩ := hmatch
      exact hs
    | wiki id nm => simp at hmatch
  · intro h
    exact ⟨_, h, rfl⟩

theorem exists_isWikiOf {segs : List Seg} {q : Str} :
    (∃ s ∈ segs, isWikiOf q s = true) ↔ ∃ nm, Seg.wiki q nm ∈ segs := by
  constructor
  · rintro ⟨s, hs, hq⟩
    cases s with
    | plain t => simp [isWikiOf] at hq
    | wiki id nm =>
      simp only [isWikiOf, decide_eq_true_eq] at hq
      subst hq
      exact ⟨nm, hs⟩
    | expl id nm => simp [isWikiOf] at hq
  · rintro ⟨nm, hmem⟩
    exact ⟨Seg.wiki q nm, hmem, by simp [isWikiOf]⟩

theorem exists_isExplOf {segs : List Seg} {q : Str} :
    (∃ s ∈ segs, isExplOf q s = true) ↔ ∃ nm, Seg.expl q nm ∈ segs := by
  constructor
  · rintro ⟨s, hs, hq⟩
    cases s with
    | plain t => simp [isExplOf] at hq
    | expl id nm =>
      simp only [isExplOf, decide_eq_true_eq] at hq
      subst hq
      exact ⟨nm, hs⟩
    | wiki id nm => simp [isExplOf] at hq
  · rintro ⟨nm, hmem⟩
    exact ⟨Seg.expl q nm, hmem, by simp [isExplOf]⟩

theorem exists_occ_scanWiki {segs : List Seg} (hs : ∀ s ∈ segs, s.OkStrict) (q : Str) :
    (∃ o ∈ scanWiki 0 (renderDoc segs), o.pid = q) ↔ ∃ nm, Seg.wiki q nm ∈ segs := by
  have hmap := scanWiki_segs segs hs 0
  constructor
  · rintro ⟨o, ho, rfl⟩
    have hmem : (o.pid, o.pname) ∈ wikiMentions segs := by
      rw [← hmap]
      exact List.mem_map.mpr ⟨o, ho, rfl⟩
    exact ⟨o.pname, mem_wikiMentions.mp hmem⟩
  · rintro ⟨nm, hmem⟩
    have : (q, nm) ∈ (scanWiki 0 (renderDoc segs)).map (fun o => (o.pid, o.pname)) := by
      rw [hmap]
      exact mem_wikiMentions.mpr hmem
    obtain ⟨o, ho, heq⟩ := List.mem_map.mp this
    exact ⟨o, ho, congrArg Prod.fst heq⟩

theorem exists_occ_scanExpl {segs : List Seg} (hs : ∀ s ∈ segs, s.OkStrict) (q : Str) :
    (∃ o ∈ scanExpl 0 (renderDoc segs), o.pid = q) ↔ ∃ nm, Seg.expl q nm ∈ segs := by
  have hmap := scanExpl_segs segs hs 0
  constructor
  · rintro ⟨o, ho, rfl⟩
    have hmem : (o.pid, o.pname) ∈ explMentions segs := by
      rw [← hmap]
      exact List.mem_map.mpr ⟨o, ho, rfl⟩
    exact ⟨o.pname, mem_explMentions.mp hmem⟩
  · rintro ⟨nm, hmem⟩
    have : (q, nm) ∈ (scanExpl 0 (renderDoc segs)).map (fun o => (o.pid, o.pname)) := by
      rw [hmap]
      exact mem_explMentions.mpr hmem
    obtain ⟨o, ho, heq⟩ := List.mem_map.mp this
    exact ⟨o, ho, congrArg Prod.fst heq⟩

theorem isWikiOf_rewriteSeg {oldId newName newId : Str} (hne : newId ≠ oldId) (s : Seg) :
    isWikiOf oldId (rewriteSeg oldId newName newId s) = false := by
  cases s with
  | plain t => rfl
  | wiki id nm =>
    by_cases he : id = oldId <;> simp [rewriteSeg, isWikiOf, he, hne]
  | expl id nm =>
    by_cases he : id = oldId <;> simp [rewriteSeg, isWikiOf, he]

theorem isExplOf_rewriteSeg {oldId newName newId : Str} (hne : newId ≠ oldId) (s : Seg) :
    isExplOf oldId (rewriteSeg oldId newName newId s) = false := by
  cases s with
  | plain t => rfl
  | expl id nm =>
    by_cases he : id = oldId <;> simp [rewriteSeg, isExplOf, he, hne]
  | wiki id nm =>
    by_cases he : id = oldId <;> simp [rewriteSeg, isExplOf, he]

/-! # The claims -/

/-- C5, counterexample: the claim admits the empty id as valid for the
wikilink form (it contains neither `]` nor `|`), but the decoder regex
`([^\]|]+)` requires a nonempty id, so `@[[|a]]` decodes to no occurrence
at all instead of the promised single occurrence. -/
theorem claim5_cex :
    encodeMention MForm.wiki [] ['a'] = "@[[|a]]".data ∧
      decodeMentions (encodeMention MForm.wiki [] ['a']) = [] := by
  constructor <;> decide

/-- C5 (amended): for nonempty ids and names obeying the delimiter grammar
of their form — and, for the explicit form, an id also free of `]` (an
explicit id containing `]]` can embed a spurious wikilink match) — encoding
then decoding yields exactly the one original occurrence, with the original
id, name and form, at offset 0. -/
theorem claim5_roundtrip (form : MForm) (id nm : Str) (hidne : id ≠ []) (hnmne : nm ≠ [])
    (hnm : ']' ∉ nm)
    (hid : (form = MForm.wiki → ']' ∉ id ∧ '|' ∉ id) ∧
      (form = MForm.expl → ')' ∉ id ∧ ']' ∉ id)) :
    decodeMentions (encodeMention form id nm) = [⟨0, form, id, nm⟩] := by
  have hnm' : ∀ c ∈ nm, c ≠ ']' := fun c hc he => hnm (he ▸ hc)
  cases form with
  | wiki =>
    obtain ⟨hidr, hidp⟩ := hid.1 rfl
    have hidr' : ∀ c ∈ id, c ≠ ']' := fun c hc he => hidr (he ▸ hc)
    have henc : encodeMention MForm.wiki id nm = Seg.render (Seg.wiki id nm) := rfl
    unfold decodeMentions
    rw [henc]
    have hsw : scanWiki 0 (Seg.render (Seg.wiki id nm)) = [⟨0, MForm.wiki, id, nm⟩] := by
      conv_lhs => rw [show Seg.render (Seg.wiki id nm)
        = Seg.render (Seg.wiki id nm) ++ [] by simp]
      rw [scanWiki_step_match 0 (by simp [Seg.render])
        (matchWiki_at_wiki hidne
          (fun c hc => by
            intro hmem
            rcases (by simpa using hmem : c = ']' ∨ c = '|') with rfl | rfl
            · exact hidr hc
            · exact hidp hc)
          hnmne hnm' [])]
      rw [scanWiki_nil]
    have hse : scanExpl 0 (Seg.render (Seg.wiki id nm)) = [] := by
      apply scanExpl_eq_nil
      have hC : NoPair ']' '(' ([']', ']'] : Str) := by
        refine (noPair_nil.cons ?_).cons ?_
        · rintro ⟨-, y, hy⟩
          simp at hy
        · rintro ⟨-, y, hy⟩
          simp at hy
      have h1 : NoPair ']' '(' (nm ++ [']', ']']) := noPair_append hnm hC
      have h2 : NoPair ']' '(' ('|' :: (nm ++ [']', ']'])) :=
        h1.cons (by rintro ⟨h, -⟩; exact absurd h (by decide))
      have h3 : NoPair ']' '(' (id ++ '|' :: (nm ++ [']', ']'])) := noPair_append hidr h2
      have h4 : NoPair ']' '(' ('[' :: (id ++ '|' :: (nm ++ [']', ']']))) :=
        h3.cons (by rintro ⟨h, -⟩; exact absurd h (by decide))
      have h5 : NoPair ']' '(' ('[' :: '[' :: (id ++ '|' :: (nm ++ [']', ']']))) :=
        h4.cons (by rintro ⟨h, -⟩; exact absurd h (by decide))
      have h6 : NoPair ']' '(' ('@' :: '[' :: '[' :: (id ++ '|' :: (nm ++ [']', ']']))) :=
        h5.cons (by rintro ⟨h, -⟩; exact absurd h (by decide))
      rw [show Seg.render (Seg.wiki id nm)
        = '@' :: '[' :: '[' :: (id ++ '|' :: (nm ++ [']', ']'])) by simp [Seg.render]]
      exact h6
    rw [hsw, hse]
    simp
  | expl =>
    obtain ⟨hidp, hidr⟩ := hid.2 rfl
    have hidp' : ∀ c ∈ id, c ≠ ')' := fun c hc he => hidp (he ▸ hc)
    have henc : encodeMention MForm.expl id nm = Seg.render (Seg.expl id nm) := rfl
    unfold decodeMentions
    rw [henc]
    have hse : scanExpl 0 (Seg.render (Seg.expl id nm)) = [⟨0, MForm.expl, id, nm⟩] := by
      conv_lhs => rw [show Seg.render (Seg.expl id nm)
        = Seg.render (Seg.expl id nm) ++ [] by simp]
      rw [scanExpl_step_match 0 (by simp [Seg.render])
        (matchExpl_at_expl hidne hidp' hnmne hnm' [])]
      rw [scanExpl_nil]
    have hsw : scanWiki 0 (Seg.render (Seg.expl id nm)) = [] := by
      apply scanWiki_eq_nil
      have hC : NoPair ']' ']' ([')'] : Str) :=
        noPair_nil.cons (by rintro ⟨h, -⟩; exact absurd h (by decide))
      have h1 : NoPair ']' ']' (id ++ [')']) := noPair_append hidr hC
      have h2 : NoPair ']' ']' (mentionScheme ++ (id ++ [')'])) :=
        noPair_append (by decide) h1
      have h3 : NoPair ']' ']' ('(' :: (mentionScheme ++ (id ++ [')']))) :=
        h2.cons (by rintro ⟨h, -⟩; exact absurd h (by decide))
      have h4 : NoPair ']' ']' (']' :: '(' :: (mentionScheme ++ (id ++ [')']))) :=
        h3.cons (by rintro ⟨-, y, hy⟩; simp at hy)
      have h5 : NoPair ']' ']' (nm ++ ']' :: '(' :: (mentionScheme ++ (id ++ [')']))) :=
        noPair_append hnm h4
      have h6 : NoPair ']' ']' ('[' :: (nm ++ ']' :: '(' :: (mentionScheme ++ (id ++ [')'])))) :=
        h5.cons (by rintro ⟨h, -⟩; exact absurd h (by decide))
      have h7 : NoPair ']' ']'
          ('@' :: '[' :: (nm ++ ']' :: '(' :: (mentionScheme ++ (id ++ [')'])))) :=
        h6.cons (by rintro ⟨h, -⟩; exact absurd h (by decide))
      rw [render_expl_shape]
      exact h7
    rw [hsw, hse]
    simp

/-- C5 witness: the round trip at a concrete valid pair in each form. -/
theorem claim5_roundtrip_witness :
    decodeMentions (encodeMention MForm.wiki "john".data "John Doe".data)
        = [⟨0, MForm.wiki, "john".data, "John Doe".data⟩] ∧
      decodeMentions (encodeMention MForm.expl "jane".data "Jane".data)
        = [⟨0, MForm.expl, "jane".data, "Jane".data⟩] :=
  ⟨claim5_roundtrip MForm.wiki "john".data "John Doe".data (by decide) (by decide) (by decide)
      ⟨fun _ => by decide, fun h => by simp at h⟩,
    claim5_roundtrip MForm.expl "jane".data "Jane".data (by decide) (by decide) (by decide)
      ⟨fun h => by simp at h, fun _ => by decide⟩⟩

/-- C6, counterexample: in the document `@[x](mention://j) @[[j|Y]]` the
explicit occurrence starts at offset 0 and the wikilink occurrence at
offset 18, yet the decoder yields the wikilink occurrence first (offsets
`[18, 0]`, not increasing), and the identity table records `j -> Y` even
though the textually earlier occurrence carries the name `x`. -/
theorem claim6_cex :
    (decodeMentions "@[x](mention://j) @[[j|Y]]".data).map Occ.start = [18, 0] ∧
      lookupA (genParticipants [] ["@[x](mention://j) @[[j|Y]]".data]) "j".data
        = some "Y".data := by
  constructor <;> decide

/-- C6 (amended): the decoder does not interleave the two forms: it returns
all wikilink occurrences first and then all explicit occurrences, and the
start offsets are strictly increasing within each of the two passes (each
pass is a single left-to-right scan); consequently the first-seen rule of
the identity table prefers a wikilink occurrence over a textually earlier
explicit occurrence of the same id. -/
theorem claim6_grouped_by_form (t : Str) :
    decodeMentions t = scanWiki 0 t ++ scanExpl 0 t ∧
      List.Chain' (fun a b => a < b) ((scanWiki 0 t).map Occ.start) ∧
      List.Chain' (fun a b => a < b) ((scanExpl 0 t).map Occ.start) :=
  ⟨rfl, (scanWiki_mono t.length t 0 le_rfl).2, (scanExpl_mono t.length t 0 le_rfl).2⟩

/-- C7: `generateParticipantsFromVault` seeds the table with every existing
participant before scanning (a curated participant keeps its curated name
and survives even with no textual occurrence), and an id already bound —
by the seed or by an earlier occurrence — keeps its binding when further
documents are folded in: later differing names are discarded. -/
theorem claim7_seed_first_wins (existing : List (Str × Str)) (docs docs' : List Str)
    (hnd : (existing.map Prod.fst).Nodup) :
    (∀ p ∈ existing, lookupA (genParticipants existing docs) p.1 = some p.2) ∧
    (∀ k v, lookupA (genParticipants existing docs) k = some v →
      lookupA (genParticipants existing (docs ++ docs')) k = some v) := by
  constructor
  · intro p hp
    unfold genParticipants
    rw [foldl_setAssoc [] (by simp) hnd]
    exact lookupA_genP_fold (lookupA_of_mem hnd hp)
  · intro k v h
    unfold genParticipants at h ⊢
    rw [List.foldl_append]
    exact lookupA_genP_fold h

/-- C7 witness: the spec's own seed-preservation example — an empty scan
still returns the curated participant `a -> Alice`. -/
theorem claim7_witness :
    lookupA (genParticipants [("a".data, "Alice".data)] []) "a".data = some "Alice".data :=
  (claim7_seed_first_wins [("a".data, "Alice".data)] [] [] (by decide)).1
    ("a".data, "Alice".data) (by decide)

/-- C9, counterexample: `selectSuggestion` performs no validation: for the
invalid name `x]y` (it contains `]`) the encoder silently emits
`@[[a|x]y]]` instead of failing with an `InvalidCharacters` error, and that
text decodes to no occurrence at all — the mention is silently mangled. -/
theorem claim9_cex :
    encodeMention MForm.wiki "a".data "x]y".data = "@[[a|x]y]]".data ∧
      decodeMentions "@[[a|x]y]]".data = [] := by
  constructor <;> decide

/-- C9 (amended): the encoder never fails and performs no validation — for
every input, also ids and names with forbidden delimiter characters, it
totally emits the interpolated surface text (of fixed overhead 6 or 15
characters over the id and name); for forbidden characters the emitted
text can decode back to nothing, as the concrete mangled wikilink shows. -/
theorem claim9_no_validation :
    (∀ (form : MForm) (id nm : Str), (encodeMention form id nm).length
        = id.length + nm.length + (match form with | MForm.wiki => 6 | MForm.expl => 15)) ∧
      decodeMentions (encodeMention MForm.wiki ['a'] ['x', ']', 'y']) = [] := by
  constructor
  · intro form id nm
    cases form <;> simp [encodeMention, mentionScheme] <;> omega
  · decide

theorem resolveIds_sub {parts : List (Str × Str)} {au : Option Str} {q : Str} {ids : List Str}
    (hres : resolveIds parts au q = some ids) : ∀ pid ∈ ids, ∃ p ∈ parts, p.1 = pid := by
  intro pid hpid
  unfold resolveIds at hres
  by_cases hme : lcStr q = ['m', 'e']
  · rw [if_pos hme] at hres
    cases au with
    | none => simp at hres
    | some uid =>
      have hres' : (if (parts.any fun p => decide (p.1 = uid)) = true
          then some [uid] else none) = some ids := hres
      by_cases hany : (parts.any fun p => decide (p.1 = uid)) = true
      · rw [if_pos hany] at hres'
        obtain ⟨p, hp, hpe⟩ := List.any_eq_true.mp hany
        have : ids = [uid] := by simpa using hres'.symm
        subst this
        have : pid = uid := by simpa using hpid
        subst this
        exact ⟨p, hp, by simpa using hpe⟩
      · rw [if_neg hany] at hres'
        simp at hres'
  · rw [if_neg hme] at hres
    by_cases hemp : parts.filter
        (fun p => containsSub (lcStr p.2) (lcStr q) || containsSub (lcStr p.1) (lcStr q)) = []
    · rw [if_pos hemp] at hres
      simp at hres
    · rw [if_neg hemp] at hres
      have hids : ids = (parts.filter (fun p =>
          containsSub (lcStr p.2) (lcStr q) || containsSub (lcStr p.1) (lcStr q))).map
            (fun p => p.1) := by simpa using hres.symm
      subst hids
      obtain ⟨p, hp, rfl⟩ := List.mem_map.mp hpid
      exact ⟨p, (List.mem_filter.mp hp).1, rfl⟩

/-- C10: the mention search only ever looks for curated ids: every id the
query resolves to belongs to a participant in settings; when the query is
not `"me"` and no participant name or id contains it case-insensitively,
the search returns before reading any document; and every document the
search reports matches the case-insensitive mention test for some curated
participant's id. -/
theorem claim10_search_curated (parts : List (Str × Str)) (au : Option Str)
    (q : Str) (docs : List (Nat × Str)) :
    (∀ ids, resolveIds parts au q = some ids → ∀ pid ∈ ids, ∃ p ∈ parts, p.1 = pid) ∧
    (lcStr q ≠ ['m', 'e'] →
      (∀ p ∈ parts, containsSub (lcStr p.2) (lcStr q) = false ∧
        containsSub (lcStr p.1) (lcStr q) = false) →
      performMentionSearch parts au q docs = none) ∧
    (∀ r, performMentionSearch parts au q docs = some r → ∀ i ∈ r,
      ∃ c, (i, c) ∈ docs ∧ ∃ p ∈ parts,
        (hasWikiCI p.1 c = true ∨ hasExplCI p.1 c = true)) := by
  refine ⟨?_, ?_, ?_⟩
  · intro ids hres
    exact resolveIds_sub hres
  · intro hme hnone
    unfold performMentionSearch resolveIds
    rw [if_neg hme]
    have hemp : parts.filter (fun p =>
        containsSub (lcStr p.2) (lcStr q) || containsSub (lcStr p.1) (lcStr q)) = [] := by
      apply List.filter_eq_nil_iff.mpr
      intro p hp
      have := hnone p hp
      simp [this.1, this.2]
    rw [hemp]
    simp
  · intro r hr i hi
    unfold performMentionSearch at hr
    cases hres : resolveIds parts au q with
    | none => rw [hres] at hr; simp at hr
    | some ids =>
      rw [hres] at hr
      have hrr : r = mentionFilter ids docs := by simpa using hr.symm
      subst hrr
      unfold mentionFilter at hi
      obtain ⟨d, hd, rfl⟩ := List.mem_map.mp hi
      obtain ⟨hdd, hpred⟩ := List.mem_filter.mp hd
      obtain ⟨pid, hpid, hhit⟩ := List.any_eq_true.mp hpred
      obtain ⟨p, hp, rfl⟩ := resolveIds_sub hres pid hpid
      exact ⟨d.2, by simpa using hdd, p, hp, by simpa using hhit⟩

/-- C10 witness: a query matching no curated participant reports no result
and reads no document. -/
theorem claim10_witness :
    performMentionSearch [("john".data, "John".data)] none "zzz".data
        [(0, "hi @[[john|JD]]".data)] = none :=
  (claim10_search_curated [("john".data, "John".data)] none "zzz".data
      [(0, "hi @[[john|JD]]".data)]).2.1 (by decide) (by decide)

/-- C1, counterexample: in the document `@[[bob|@[[john|x]]` the decoder
finds exactly one occurrence, whose id is `bob` (the text `@[[john|x` is
merely bob's cached name), yet rewriting the transition `john -> (n, N)`
changes the text: the rewrite pattern fires inside the cached name, so it
does not replace *exactly* the occurrences whose id field is `oldId`. -/
theorem claim1_cex :
    decodeMentions "@[[bob|@[[john|x]]".data
        = [⟨0, MForm.wiki, "bob".data, "@[[john|x".data⟩] ∧
      rewriteDoc "john".data "N".data "n".data "@[[bob|@[[john|x]]".data
        = "@[[bob|@[[n|N]]".data := by
  constructor <;> decide

/-- C1 (amended): for a document that is an interleaving of mention-free
plain text and well-formed mentions (nonempty ids free of delimiter and
regex-special characters, names free of `]`, `[`, `@` and `$`), and a
transition whose `oldId`, `newId` and `newName` obey the same grammar, the
rewrite replaces exactly the mention segments whose id equals `oldId`,
re-encodes each as `(newId, newName)` in the same form it had, and leaves
every other segment byte-for-byte unchanged. -/
theorem claim1_rewrite_segmentwise (oldId newName newId : Str) (segs : List Seg)
    (hold : idOk oldId) (hnew : idOk newId) (hnm : nmOk newName)
    (hs : ∀ s ∈ segs, s.Ok) :
    rewriteDoc oldId newName newId (renderDoc segs)
      = renderDoc (segs.map (rewriteSeg oldId newName newId)) :=
  rewriteDoc_segs oldId newName newId hold hnew hnm segs hs

/-- C1 witness: the spec's end-to-end scenario document. -/
theorem claim1_witness :
    rewriteDoc "john".data "Johnny".data "johnny".data
        (renderDoc [Seg.plain "Hello ".data, Seg.wiki "john".data "John Doe".data,
          Seg.plain ", see ".data, Seg.expl "jane".data "jane".data])
      = renderDoc ([Seg.plain "Hello ".data, Seg.wiki "john".data "John Doe".data,
          Seg.plain ", see ".data, Seg.expl "jane".data "jane".data].map
            (rewriteSeg "john".data "Johnny".data "johnny".data)) :=
  claim1_rewrite_segmentwise "john".data "Johnny".data "johnny".data _
    (by decide) (by decide) (by decide) (by decide)

/-- C3, counterexample: under the identity transition `john -> (John, john)`
the replacement text coincides with the existing text, so the document is
not modified and its matches are never added to `totalUpdated`: the rewrite
returns 0 although a scan of the pre-rewrite corpus finds one occurrence
of `john` — exactly the case the claim says must still be counted. -/
theorem claim3_cex :
    (updateMentions "john".data "John".data "john".data
        [(0, "@[[john|John]]".data)]).2.1 = 0 ∧
      decodeMentions "@[[john|John]]".data
        = [⟨0, MForm.wiki, "john".data, "John".data⟩] := by
  constructor <;> decide

/-- Filtering decoded occurrences by id agrees with counting over the
projected (id, name) pairs. -/
theorem length_filter_pid (l : List Occ) (q : Str) :
    (l.filter (fun o => decide (o.pid = q))).length
      = (l.map (fun o => (o.pid, o.pname))).countP (fun pr => decide (pr.1 = q)) := by
  induction l with
  | nil => rfl
  | cons o l ih => by_cases h : o.pid = q <;> simp [h, ih]

/-- C3 (amended): `totalUpdated` equals the number of occurrences of
`oldId` found by the pre-rewrite scan in exactly those documents whose
text the rewrite changed; occurrences in documents left byte-for-byte
identical (such as under an identity transition) are not counted.  Stated
for corpora of well-formed segment documents and well-formed transitions. -/
theorem claim3_conservation (oldId newName newId : Str) (docs : List (Nat × Str))
    (hold : idOk oldId) (hnew : idOk newId) (hnmok : nmOk newName)
    (hdocs : ∀ p ∈ docs, ∃ segs : List Seg, (∀ s ∈ segs, s.OkStrict) ∧ p.2 = renderDoc segs) :
    (updateMentions oldId newName newId docs).2.1
      = (docs.map (fun p => if rewriteDoc oldId newName newId p.2 = p.2 then 0
          else ((decodeMentions p.2).filter (fun o => decide (o.pid = oldId))).length)).sum := by
  rw [updateMentions_eq]
  dsimp only
  congr 1
  apply List.map_congr_left
  intro p hp
  obtain ⟨segs, hsegs, hpr⟩ := hdocs p hp
  have hsOk : ∀ s ∈ segs, s.Ok := fun s h => (hsegs s h).toOk
  by_cases hch : rewriteDoc oldId newName newId p.2 = p.2
  · simp [hch]
  · rw [if_neg hch, if_neg hch, hpr]
    rw [cntWiki_segs oldId hold segs hsOk, cntExpl_segs oldId hold segs hsOk]
    unfold decodeMentions
    rw [List.filter_append, List.length_append]
    rw [length_filter_pid, length_filter_pid]
    rw [scanWiki_segs segs hsegs 0, scanExpl_segs segs hsegs 0]
    rw [countP_wikiMentions, countP_explMentions]

/-- C3 witness: the spec's end-to-end scenario corpus: one changed document
with one wikilink occurrence of `john`, one mention-free document. -/
theorem claim3_witness :
    (updateMentions "john".data "Johnny".data "johnny".data
        [(0, renderDoc [Seg.plain "Hello ".data, Seg.wiki "john".data "John Doe".data,
          Seg.plain ", see ".data, Seg.expl "jane".data "jane".data]),
         (1, renderDoc [Seg.plain "no mentions here".data])]).2.1
      = (([(0, renderDoc [Seg.plain "Hello ".data, Seg.wiki "john".data "John Doe".data,
          Seg.plain ", see ".data, Seg.expl "jane".data "jane".data]),
         (1, renderDoc [Seg.plain "no mentions here".data])] : List (Nat × Str)).map
          (fun p => if rewriteDoc "john".data "Johnny".data "johnny".data p.2 = p.2 then 0
            else ((decodeMentions p.2).filter
              (fun o => decide (o.pid = "john".data))).length)).sum := by
  apply claim3_conservation "john".data "Johnny".data "johnny".data _
    (by decide) (by decide) (by decide)
  intro p hp
  rcases (by simpa using hp :
      p = (0, renderDoc [Seg.plain "Hello ".data, Seg.wiki "john".data "John Doe".data,
        Seg.plain ", see ".data, Seg.expl "jane".data "jane".data]) ∨
      p = (1, renderDoc [Seg.plain "no mentions here".data])) with rfl | rfl
  · exact ⟨_, by decide, rfl⟩
  · exact ⟨_, by decide, rfl⟩

/-- C4, counterexample: `@[[john|]]` contains no mention occurrence at all
(the decoder requires a nonempty cached name), yet the rewrite pattern
`@\[\[john\|[^\]]*\]\]` accepts the empty name, so the document's text
changes and it is passed to the write operation. -/
theorem claim4_cex :
    (updateMentions "john".data "Johnny".data "johnny".data
        [(0, "@[[john|]]".data)]).2.2 = [0] ∧
      decodeMentions "@[[john|]]".data = [] := by
  constructor <;> decide

/-- C4 (amended): a document is written back exactly when its rewritten
text differs byte-for-byte from its old text; and for well-formed segment
documents (no degenerate empty-name mentions, no mention-like text nested
in cached names) a document with no occurrence of `oldId` is left
unchanged and is never written. -/
theorem claim4_writeback (oldId newName newId : Str) (docs : List (Nat × Str))
    (hold : idOk oldId) (hnew : idOk newId) (hnmok : nmOk newName)
    (hnd : (docs.map Prod.fst).Nodup)
    (hdocs : ∀ p ∈ docs, ∃ segs : List Seg, (∀ s ∈ segs, s.OkStrict) ∧ p.2 = renderDoc segs) :
    ((updateMentions oldId newName newId docs).2.2
        = (docs.filter (fun p => decide (rewriteDoc oldId newName newId p.2 ≠ p.2))).map
            (fun p => p.1)) ∧
    (∀ p ∈ docs, (∀ o ∈ decodeMentions p.2, o.pid ≠ oldId) →
      rewriteDoc oldId newName newId p.2 = p.2 ∧
        p.1 ∉ (updateMentions oldId newName newId docs).2.2) := by
  constructor
  · rw [updateMentions_eq]
  · intro p hp hno
    obtain ⟨segs, hsegs, hpr⟩ := hdocs p hp
    have hsOk : ∀ s ∈ segs, s.Ok := fun s h => (hsegs s h).toOk
    have hfix : ∀ s ∈ segs, rewriteSeg oldId newName newId s = s := by
      intro s hsmem
      cases s with
      | plain t => rfl
      | wiki id nm =>
        by_cases he : id = oldId
        · exfalso
          obtain ⟨o, ho, hop⟩ := (exists_occ_scanWiki hsegs oldId).mpr ⟨nm, he ▸ hsmem⟩
          refine hno o ?_ hop
          rw [hpr]
          exact List.mem_append.mpr (Or.inl ho)
        · simp [rewriteSeg, he]
      | expl id nm =>
        by_cases he : id = oldId
        · exfalso
          obtain ⟨o, ho, hop⟩ := (exists_occ_scanExpl hsegs oldId).mpr ⟨nm, he ▸ hsmem⟩
          refine hno o ?_ hop
          rw [hpr]
          exact List.mem_append.mpr (Or.inr ho)
        · simp [rewriteSeg, he]
    have hfixmap : segs.map (rewriteSeg oldId newName newId) = segs := by
      rw [show segs.map (rewriteSeg oldId newName newId) = segs.map id from
        List.map_congr_left (fun s h => hfix s h), List.map_id]
    have hchg : rewriteDoc oldId newName newId p.2 = p.2 := by
      rw [hpr, rewriteDoc_segs oldId newName newId hold hnew hnmok segs hsOk, hfixmap, ← hpr]
    refine ⟨hchg, ?_⟩
    rw [updateMentions_eq]
    simp only [List.mem_map, List.mem_filter, decide_eq_true_eq, not_exists, not_and]
    rintro q ⟨hq, hqch⟩ hqi
    have hqp : q = p := List.inj_on_of_nodup_map hnd hq hp hqi
    subst hqp
    exact hqch hchg

/-- C4 witness: a corpus with one changed and one untouched document: the
untouched one, with no occurrence of `john`, is not written. -/
theorem claim4_witness :
    rewriteDoc "john".data "Johnny".data "johnny".data
        (renderDoc [Seg.expl "jane".data "Jane".data])
      = renderDoc [Seg.expl "jane".data "Jane".data] ∧
    (1 : Nat) ∉ (updateMentions "john".data "Johnny".data "johnny".data
        [(0, renderDoc [Seg.wiki "john".data "JD".data]),
         (1, renderDoc [Seg.expl "jane".data "Jane".data])]).2.2 := by
  have h := (claim4_writeback "john".data "Johnny".data "johnny".data
      [(0, renderDoc [Seg.wiki "john".data "JD".data]),
       (1, renderDoc [Seg.expl "jane".data "Jane".data])]
      (by decide) (by decide) (by decide) (by decide)
      (by
        intro p hp
        rcases (by simpa using hp :
            p = (0, renderDoc [Seg.wiki "john".data "JD".data]) ∨
            p = (1, renderDoc [Seg.expl "jane".data "Jane".data])) with rfl | rfl
        · exact ⟨_, by decide, rfl⟩
        · exact ⟨_, by decide, rfl⟩)).2
      ((1 : Nat), renderDoc [Seg.expl "jane".data "Jane".data]) (by simp) (by decide)
  exact h

/-- C2, counterexample: with `newName = "@[[john|x"` (which contains no
forbidden `]`, so the data model of §3 admits it) the first pass rewrites
`@[[john|J]]` to `@[[bob|@[[john|x]]`, and the second pass finds a fresh
match of `oldId` inside the just-inserted cached name and rewrites again:
applying the transition twice does not equal applying it once. -/
theorem claim2_cex :
    (updateMentions "john".data "@[[john|x".data "bob".data
        ((updateMentions "john".data "@[[john|x".data "bob".data
          [(0, "@[[john|J]]".data)]).1)).1
      ≠ (updateMentions "john".data "@[[john|x".data "bob".data
          [(0, "@[[john|J]]".data)]).1 := by
  decide

/-- C2 (amended): for corpora of well-formed segment documents and a
transition whose `newName` contains no mention-opening characters
(`@`, `[`) and no `]` or `$`, the rewrite is idempotent: a second
application leaves every document byte-for-byte unchanged, writes nothing
and reports a zero total; and unless `oldId = newId` the second pass also
finds zero pattern matches of `oldId` in any document. -/
theorem claim2_idempotent (oldId newName newId : Str) (docs : List (Nat × Str))
    (hold : idOk oldId) (hnew : idOk newId) (hnmok : nmOk newName)
    (hdocs : ∀ p ∈ docs, ∃ segs : List Seg, (∀ s ∈ segs, s.Ok) ∧ p.2 = renderDoc segs) :
    updateMentions oldId newName newId ((updateMentions oldId newName newId docs).1)
      = ((updateMentions oldId newName newId docs).1, 0, []) ∧
    (newId ≠ oldId → ∀ p ∈ (updateMentions oldId newName newId docs).1,
      cntWiki oldId p.2 + cntExpl oldId p.2 = 0) := by
  have hdocs1 : ∀ p ∈ (updateMentions oldId newName newId docs).1,
      ∃ segs1 : List Seg, (∀ s ∈ segs1, s.Ok) ∧ p.2 = renderDoc segs1 ∧
        segs1.map (rewriteSeg oldId newName newId) = segs1 := by
    intro p hp
    rw [updateMentions_eq] at hp
    obtain ⟨q, hq, rfl⟩ := List.mem_map.mp hp
    obtain ⟨segs, hsegs, hqr⟩ := hdocs q hq
    refine ⟨segs.map (rewriteSeg oldId newName newId), ?_, ?_, ?_⟩
    · intro s hsmem
      obtain ⟨s0, h0, rfl⟩ := List.mem_map.mp hsmem
      exact rewriteSeg_ok hnew hnmok (hsegs s0 h0)
    · show rewriteDoc oldId newName newId q.2 = _
      rw [hqr, rewriteDoc_segs oldId newName newId hold hnew hnmok segs hsegs]
    · rw [List.map_map]
      exact List.map_congr_left (fun s _ => rewriteSeg_idem oldId newName newId s)
  have hfix : ∀ p ∈ (updateMentions oldId newName newId docs).1,
      rewriteDoc oldId newName newId p.2 = p.2 := by
    intro p hp
    obtain ⟨segs1, hok, hpr, hfixseg⟩ := hdocs1 p hp
    rw [hpr, rewriteDoc_segs oldId newName newId hold hnew hnmok segs1 hok, hfixseg]
  constructor
  · rw [updateMentions_eq oldId newName newId ((updateMentions oldId newName newId docs).1)]
    refine Prod.ext ?_ (Prod.ext ?_ ?_)
    · show (updateMentions oldId newName newId docs).1.map
        (fun p => (p.1, rewriteDoc oldId newName newId p.2))
          = (updateMentions oldId newName newId docs).1
      rw [show (updateMentions oldId newName newId docs).1.map
          (fun p => (p.1, rewriteDoc oldId newName newId p.2))
            = (updateMentions oldId newName newId docs).1.map id from
        List.map_congr_left (fun p hp => by simp [hfix p hp]), List.map_id]
    · show ((updateMentions oldId newName newId docs).1.map
        (fun p => if rewriteDoc oldId newName newId p.2 = p.2 then 0
          else cntWiki oldId p.2 + cntExpl oldId p.2)).sum = 0
      apply List.sum_eq_zero
      intro x hx
      obtain ⟨p, hp, rfl⟩ := List.mem_map.mp hx
      rw [if_pos (hfix p hp)]
    · show (((updateMentions oldId newName newId docs).1.filter
        (fun p => decide (rewriteDoc oldId newName newId p.2 ≠ p.2))).map
          (fun p => p.1)) = []
      rw [List.filter_eq_nil_iff.mpr (fun p hp => by simp [hfix p hp])]
      rfl
  · intro hne p hp
    obtain ⟨segs1, hok, hpr, hfixseg⟩ := hdocs1 p hp
    rw [hpr, cntWiki_segs oldId hold segs1 hok, cntExpl_segs oldId hold segs1 hok]
    have hw : segs1.countP (isWikiOf oldId) = 0 := by
      rw [← hfixseg, List.countP_map]
      exact List.countP_eq_zero.mpr
        (fun s _ => by simp [Function.comp, isWikiOf_rewriteSeg hne s])
    have he : segs1.countP (isExplOf oldId) = 0 := by
      rw [← hfixseg, List.countP_map]
      exact List.countP_eq_zero.mpr
        (fun s _ => by simp [Function.comp, isExplOf_rewriteSeg hne s])
    rw [hw, he]

/-- C2 witness: the scenario corpus, rewritten twice. -/
theorem claim2_witness :
    updateMentions "john".data "Johnny".data "johnny".data
        ((updateMentions "john".data "Johnny".data "johnny".data
          [(0, renderDoc [Seg.plain "Hello ".data, Seg.wiki "john".data "John Doe".data])]).1)
      = ((updateMentions "john".data "Johnny".data "johnny".data
          [(0, renderDoc [Seg.plain "Hello ".data, Seg.wiki "john".data "John Doe".data])]).1,
         0, []) :=
  (claim2_idempotent "john".data "Johnny".data "johnny".data
      [(0, renderDoc [Seg.plain "Hello ".data, Seg.wiki "john".data "John Doe".data])]
      (by decide) (by decide) (by decide)
      (by
        intro p hp
        have : p = (0, renderDoc [Seg.plain "Hello ".data,
            Seg.wiki "john".data "John Doe".data]) := by simpa using hp
        subst this
        exact ⟨_, by decide, rfl⟩)).1

/-- C8, counterexample: the search regex carries the `i` flag, so the
*scheme* `mention://` is also matched case-insensitively: the document
`@[x](MENTION://john)` contains no mention occurrence at all, yet the
query filter keeps it for the id `john`. -/
theorem claim8_cex :
    mentionFilter ["john".data] [(0, "@[x](MENTION://john)".data)] = [0] ∧
      decodeMentions "@[x](MENTION://john)".data = [] := by
  constructor <;> decide

theorem hasWikiCI_segs {pid : Str} (hok : idOk pid) {segs : List Seg}
    (hs : ∀ s ∈ segs, s.OkStrict) :
    hasWikiCI pid (renderDoc segs) = true ↔
      ∃ o ∈ scanWiki 0 (renderDoc (segs.map lcSeg)), o.pid = lcStr pid := by
  have hsegs' : ∀ s ∈ segs.map lcSeg, s.OkStrict := by
    intro s hsmem
    obtain ⟨s0, h0, rfl⟩ := List.mem_map.mp hsmem
    exact lcSeg_okStrict (hs s0 h0)
  have hOk' : ∀ s ∈ segs.map lcSeg, s.Ok := fun s h => (hsegs' s h).toOk
  rw [show (hasWikiCI pid (renderDoc segs) = true) ↔
      cntWiki (lcStr pid) (lcStr (renderDoc segs)) ≠ 0 by simp [hasWikiCI]]
  rw [lcStr_renderDoc, cntWiki_segs (lcStr pid) (idOk_lc hok) _ hOk']
  rw [exists_occ_scanWiki hsegs' (lcStr pid), ← exists_isWikiOf]
  constructor
  · intro h
    exact List.countP_pos.mp (Nat.pos_of_ne_zero h)
  · intro h
    exact Nat.pos_iff_ne_zero.mp (List.countP_pos.mpr h)

theorem hasExplCI_segs {pid : Str} (hok : idOk pid) {segs : List Seg}
    (hs : ∀ s ∈ segs, s.OkStrict) :
    hasExplCI pid (renderDoc segs) = true ↔
      ∃ o ∈ scanExpl 0 (renderDoc (segs.map lcSeg)), o.pid = lcStr pid := by
  have hsegs' : ∀ s ∈ segs.map lcSeg, s.OkStrict := by
    intro s hsmem
    obtain ⟨s0, h0, rfl⟩ := List.mem_map.mp hsmem
    exact lcSeg_okStrict (hs s0 h0)
  have hOk' : ∀ s ∈ segs.map lcSeg, s.Ok := fun s h => (hsegs' s h).toOk
  rw [show (hasExplCI pid (renderDoc segs) = true) ↔
      cntExpl (lcStr pid) (lcStr (renderDoc segs)) ≠ 0 by simp [hasExplCI]]
  rw [lcStr_renderDoc, cntExpl_segs (lcStr pid) (idOk_lc hok) _ hOk']
  rw [exists_occ_scanExpl hsegs' (lcStr pid), ← exists_isExplOf]
  constructor
  · intro h
    exact List.countP_pos.mp (Nat.pos_of_ne_zero h)
  · intro h
    exact Nat.pos_iff_ne_zero.mp (List.countP_pos.mpr h)

/-- C8 (amended): for well-formed segment documents and well-formed ids,
the filter keeps a document exactly when the *lower-cased* document
contains a mention occurrence (per the decoder applied to the lower-cased
text — i.e. the whole mention syntax, including the `mention://` scheme,
is compared case-insensitively) whose id equals some lower-cased id of the
query set. -/
theorem claim8_filter_ci (ids : List Str) (i : Nat) (segs : List Seg)
    (hidok : ∀ pid ∈ ids, idOk pid) (hs : ∀ s ∈ segs, s.OkStrict) :
    mentionFilter ids [(i, renderDoc segs)] = [i] ↔
      ∃ o ∈ decodeMentions (lcStr (renderDoc segs)), ∃ pid ∈ ids, o.pid = lcStr pid := by
  have hdoc' : lcStr (renderDoc segs) = renderDoc (segs.map lcSeg) := lcStr_renderDoc segs
  have h1 : mentionFilter ids [(i, renderDoc segs)] = [i] ↔
      (ids.any (fun pid =>
        hasWikiCI pid (renderDoc segs) || hasExplCI pid (renderDoc segs))) = true := by
    unfold mentionFilter
    by_cases hp : (ids.any fun pid =>
        hasWikiCI pid (renderDoc segs) || hasExplCI pid (renderDoc segs)) = true
    · simp [hp]
    · simp [hp]
  rw [h1, List.any_eq_true]
  constructor
  · rintro ⟨pid, hpid, hhit⟩
    rw [Bool.or_eq_true] at hhit
    rcases hhit with hw | he
    · obtain ⟨o, ho, hop⟩ := (hasWikiCI_segs (hidok pid hpid) hs).mp hw
      refine ⟨o, ?_, pid, hpid, hop⟩
      rw [hdoc']
      exact List.mem_append.mpr (Or.inl ho)
    · obtain ⟨o, ho, hop⟩ := (hasExplCI_segs (hidok pid hpid) hs).mp he
      refine ⟨o, ?_, pid, hpid, hop⟩
      rw [hdoc']
      exact List.mem_append.mpr (Or.inr ho)
  · rintro ⟨o, ho, pid, hpid, hop⟩
    rw [hdoc'] at ho
    refine ⟨pid, hpid, ?_⟩
    rw [Bool.or_eq_true]
    rcases List.mem_append.mp ho with how | hoe
    · exact Or.inl ((hasWikiCI_segs (hidok pid hpid) hs).mpr ⟨o, how, hop⟩)
    · exact Or.inr ((hasExplCI_segs (hidok pid hpid) hs).mpr ⟨o, hoe, hop⟩)

/-- C8 witness: a mixed-case id in the text matches a mixed-case query id. -/
theorem claim8_witness :
    mentionFilter ["John".data] [(7, renderDoc [Seg.wiki "jOhN".data "X".data])] = [7] :=
  (claim8_filter_ci ["John".data] 7 [Seg.wiki "jOhN".data "X".data]
      (by decide) (by decide)).mpr (by decide)

end Mention
